import Mathlib

/-!
Verification of the zip-extractor / csv-collector utility (src/main.py).

The program is embedded shallowly: the filesystem is an inductive tree of
named nodes, the three pipeline phases (staging, unpacking, sorting) are
executable Lean functions translated from the corresponding Python
functions, and the GUI log / progress bar are modelled as an event list.
-/

namespace ZipCollector

/-! ## String helpers (Python `str.endswith` and `os.path.splitext`) -/

/-- Bool version of `String.endsWith`, computed on character lists so that
concrete instances reduce in the kernel.  Mirrors `full_path.endswith(suf)`. -/
def strEndsWith (s suf : String) : Bool :=
  decide (s.toList.reverse.take suf.toList.length = suf.toList.reverse)

def isZipName (s : String) : Bool := strEndsWith s ".zip"

def isCsvName (s : String) : Bool := strEndsWith s ".csv"

def isPdfName (s : String) : Bool := strEndsWith s ".pdf"

/-- Index of the last dot of a character list, if any. -/
def lastDotIdx : List Char → Option Nat
  | [] => none
  | c :: cs =>
    match lastDotIdx cs with
    | some i => some (i + 1)
    | none => if c = '.' then some 0 else none

/-- First component of `os.path.splitext(s)` for a bare file name (no path
separators): the name is split at its last dot, except that a run of leading
dots does not start an extension. -/
def stemOf (s : String) : String :=
  let cs := s.toList
  match lastDotIdx cs with
  | none => s
  | some i => if (cs.take i).any (fun c => c != '.') then String.mk (cs.take i) else s

/-! ## Filesystem model

A node is a plain file with raw data, a file that is a well-formed zip
archive of a list of entries, or a directory.  A plain file whose name ends
in `.zip` models a corrupt archive: opening it raises `BadZipFile`. -/

inductive Node where
  | file (name : String) (data : String)
  | zipFile (name : String) (contents : List Node)
  | dir (name : String) (children : List Node)

mutual

def nodeEqB : Node → Node → Bool
  | .file n d, .file n' d' => n == n' && d == d'
  | .zipFile n cs, .zipFile n' cs' => n == n' && listEqB cs cs'
  | .dir n cs, .dir n' cs' => n == n' && listEqB cs cs'
  | _, _ => false

def listEqB : List Node → List Node → Bool
  | [], [] => true
  | a :: as, b :: bs => nodeEqB a b && listEqB as bs
  | _, _ => false

end

mutual

def nodeEqB_iff : (a b : Node) → (nodeEqB a b = true ↔ a = b)
  | .file n d, .file n' d' => by simp [nodeEqB]
  | .zipFile n cs, .zipFile n' cs' => by simp [nodeEqB, listEqB_iff cs cs']
  | .dir n cs, .dir n' cs' => by simp [nodeEqB, listEqB_iff cs cs']
  | .file _ _, .zipFile _ _ => by simp [nodeEqB]
  | .file _ _, .dir _ _ => by simp [nodeEqB]
  | .zipFile _ _, .file _ _ => by simp [nodeEqB]
  | .zipFile _ _, .dir _ _ => by simp [nodeEqB]
  | .dir _ _, .file _ _ => by simp [nodeEqB]
  | .dir _ _, .zipFile _ _ => by simp [nodeEqB]

def listEqB_iff : (as bs : List Node) → (listEqB as bs = true ↔ as = bs)
  | [], [] => by simp [listEqB]
  | [], _ :: _ => by simp [listEqB]
  | _ :: _, [] => by simp [listEqB]
  | a :: as, b :: bs => by simp [listEqB, nodeEqB_iff a b, listEqB_iff as bs]

end

instance : DecidableEq Node := fun a b => decidable_of_iff _ (nodeEqB_iff a b)

def Node.name : Node → String
  | .file n _ => n
  | .zipFile n _ => n
  | .dir n _ => n

def Node.childrenOf : Node → List Node
  | .dir _ cs => cs
  | _ => []

/-- Paths are lists of path components, relative to the tree root. -/
abbrev Path := List String

/-- First child with the given name (a real directory listing has unique
names; on a model tree with duplicates the first occurrence wins,
consistently in all functions below). -/
def childNamed (m : String) (cs : List Node) : Option Node :=
  cs.find? (fun c => c.name == m)

/-- Replace the first child with the given name by the image under `g`. -/
def modifyChild (m : String) (g : Node → Node) : List Node → List Node
  | [] => []
  | c :: cs => if c.name == m then g c :: cs else c :: modifyChild m g cs

/-- Resolve a path in a tree. -/
def getAt : Node → Path → Option Node
  | t, [] => some t
  | .dir _ cs, m :: p =>
    match childNamed m cs with
    | some c => getAt c p
    | none => none
  | _, _ :: _ => none

/-- Replace the subtree at a path. -/
def setAt : Path → Node → Node → Node
  | [], t, _ => t
  | m :: p, t, .dir n cs => .dir n (modifyChild m (setAt p t) cs)
  | _ :: _, _, t' => t'

/-- Apply a function to the child list of the directory at a path. -/
def modifyAt : Path → (List Node → List Node) → Node → Node
  | [], f, .dir n cs => .dir n (f cs)
  | m :: p, f, .dir n cs => .dir n (modifyChild m (modifyAt p f) cs)
  | _, _, t => t

/-! ## `ZipFile.extractall` semantics

Extraction into an existing directory merges: an entry overwrites a
same-named existing entry, except that a directory entry merges recursively
with a same-named existing directory; fresh entries are appended. -/

mutual

def mergeEntry (old : List Node) (e : Node) : List Node :=
  match childNamed e.name old with
  | none => old ++ [e]
  | some c =>
    match c, e with
    | .dir _ ods, .dir en eds => modifyChild en (fun _ => .dir en (mergeList ods eds)) old
    | _, _ => modifyChild e.name (fun _ => e) old

def mergeList (old : List Node) : List Node → List Node
  | [] => old
  | e :: es => mergeList (mergeEntry old e) es

end

/-- Merge archive contents into a node, when it is a directory. -/
def mergeDir (cts : List Node) : Node → Node
  | .dir n ds => .dir n (mergeList ds cts)
  | t => t

/-! ## Log events (the GUI log pane, one constructor per log line kind) -/

inductive Event where
  | copied (name : String)
  | extracted (name : String)
  | badZip (name : String)
  | ioErr (name : String)
  | sortedCsv (name : String)
  | sortedPdf (name : String)
deriving DecidableEq

/-! ## Archive Unpacker (`find_and_extract_zip_files`)

One loop iteration pops a directory path from the stack, snapshots its
child names with `os.listdir`, and processes each name in order inside a
per-item try/except.  Processing a name mutates only the child list of the
popped directory, so a scan is a fold over the snapshot threading that
child list. -/

structure ScanOut where
  children : List Node
  pushes : List String
  events : List Event
deriving DecidableEq

/-- Process one `os.listdir` entry of the directory whose current child
list is `cs`, as in the body of the inner `for` loop:
  - a file whose name ends in `.zip` that is not a valid archive: the
    extraction folder is created first (`os.makedirs`) when absent, then
    `zipfile.ZipFile` raises `BadZipFile`, which is caught and logged;
  - a valid archive named `*.zip`: the extraction folder is created when
    absent, otherwise `extractall` merges into the existing directory; on
    success the folder is pushed.  When the target path exists as a
    non-directory, `extractall` fails on the first member (caught by the
    generic handler) unless the archive is empty, in which case it succeeds
    and the non-directory path is pushed;
  - a directory: pushed;
  - anything else (a valid archive not named `*.zip`, a vanished entry):
    skipped. -/
def processName (cs : List Node) (item : String) : ScanOut :=
  match childNamed item cs with
  | some (.file n _) =>
    if isZipName n then
      match childNamed (stemOf n) cs with
      | some _ => { children := cs, pushes := [], events := [.badZip n] }
      | none => { children := cs ++ [.dir (stemOf n) []], pushes := [], events := [.badZip n] }
    else { children := cs, pushes := [], events := [] }
  | some (.zipFile n cts) =>
    if isZipName n then
      match childNamed (stemOf n) cs with
      | some (.dir _ _) =>
        { children := modifyChild (stemOf n) (mergeDir cts) cs
          pushes := [stemOf n], events := [.extracted n] }
      | some _ =>
        if cts.isEmpty then { children := cs, pushes := [stemOf n], events := [.extracted n] }
        else { children := cs, pushes := [], events := [.ioErr n] }
      | none =>
        { children := cs ++ [.dir (stemOf n) cts], pushes := [stemOf n], events := [.extracted n] }
    else { children := cs, pushes := [], events := [] }
  | some (.dir n _) => { children := cs, pushes := [n], events := [] }
  | none => { children := cs, pushes := [], events := [] }

/-- Fold `processName` over the `os.listdir` snapshot. -/
def scanNames (cs : List Node) : List String → ScanOut
  | [] => { children := cs, pushes := [], events := [] }
  | m :: ms =>
    let r := processName cs m
    let r' := scanNames r.children ms
    { children := r'.children, pushes := r.pushes ++ r'.pushes, events := r.events ++ r'.events }

/-- One iteration of the `while stack` loop for popped path `p`.  Returns
`none` when `os.listdir(current_path)` raises: that call is outside every
try block, so the exception aborts the whole run. -/
def stepPop (fs : Node) (p : Path) : Option (Node × List Path × List Event) :=
  match getAt fs p with
  | some (.dir _ cs) =>
    let s := scanNames cs (cs.map Node.name)
    some (modifyAt p (fun _ => s.children) fs, s.pushes.map (fun m => p ++ [m]), s.events)
  | _ => none

@[ext]
structure RunOut where
  fs : Node
  stack : List Path
  events : List Event
  pushes : List Path
  crashed : Bool
deriving DecidableEq

/-- The `while stack:` loop, with fuel counting pops.  The Python stack
pops from its end; here the head of `stack` is the top, so the paths pushed
by one scan enter reversed.  `pushes` accumulates every path ever pushed,
in push order.  An aborted `os.listdir` sets `crashed` and leaves the
remaining stack unprocessed. -/
def runFrom : Nat → Node → List Path → RunOut
  | 0, fs, st => ⟨fs, st, [], [], false⟩
  | _ + 1, fs, [] => ⟨fs, [], [], [], false⟩
  | fuel + 1, fs, p :: rest =>
    match stepPop fs p with
    | none => ⟨fs, p :: rest, [], [], true⟩
    | some (fs1, ps, evs) =>
      let r := runFrom fuel fs1 (ps.reverse ++ rest)
      ⟨r.fs, r.stack, evs ++ r.events, ps ++ r.pushes, r.crashed⟩

/-! ## Stager (`copy_to_extracted_folder`)

Copies each `os.listdir` entry of the source that is a directory or a file
whose name ends in `.zip`; every other entry is skipped. -/

def stageChildren : List Node → List Node × List Event
  | [] => ([], [])
  | c :: cs =>
    let r := stageChildren cs
    match c with
    | .dir n _ => (c :: r.1, .copied n :: r.2)
    | .file n _ => if isZipName n then (c :: r.1, .copied n :: r.2) else r
    | .zipFile n _ => if isZipName n then (c :: r.1, .copied n :: r.2) else r

/-! ## File Sorter (`organize_files_by_extension`) -/

/-- The files (non-directories) of a child list, in listing order. -/
def filesOnly : List Node → List Node
  | [] => []
  | .dir _ _ :: cs => filesOnly cs
  | c :: cs => c :: filesOnly cs

mutual

/-- Files strictly below one node: empty unless the node is a directory. -/
def walkNode : Node → List Node
  | .dir _ ds => filesOnly ds ++ walkSub ds
  | _ => []

/-- Files found strictly below a child list, in `os.walk` top-down order. -/
def walkSub : List Node → List Node
  | [] => []
  | c :: cs => walkNode c ++ walkSub cs

end

/-- All files at or below a directory with children `cs`, in `os.walk`
order. -/
def walkAll (cs : List Node) : List Node := filesOnly cs ++ walkSub cs

/-- `shutil.copy` of a file into a flat folder: overwrite a same-named
entry, otherwise append. -/
def putFlat (folder : List Node) (f : Node) : List Node :=
  match childNamed f.name folder with
  | some _ => modifyChild f.name (fun _ => f) folder
  | none => folder ++ [f]

structure SortOut where
  csvs : List Node
  pdfs : List Node
  events : List Event
deriving DecidableEq

def sortWalk (acc : SortOut) : List Node → SortOut
  | [] => acc
  | f :: rest =>
    if isCsvName f.name then
      sortWalk { acc with csvs := putFlat acc.csvs f, events := acc.events ++ [.sortedCsv f.name] } rest
    else if isPdfName f.name then
      sortWalk { acc with pdfs := putFlat acc.pdfs f, events := acc.events ++ [.sortedPdf f.name] } rest
    else sortWalk acc rest

def organize (cs : List Node) : SortOut := sortWalk ⟨[], [], []⟩ (walkAll cs)

/-! ## Full pipeline (`select_folder_and_process`)

The `Merged` folder is created first, then `copy_to_extracted_folder`
creates `Extracted` and iterates over `os.listdir` of the selected folder,
which therefore also lists the just-created `Merged` and `Extracted`
directories; both are directories, so the stager copies them too.  The
model lists entries in creation order: the pre-existing source entries,
then `Merged`, then `Extracted`.  Copying `Extracted` into itself copies
the snapshot of its contents at that moment (`shutil.copytree` lists the
source before creating the destination).  The completion dialog is shown
only when the unpacking loop finishes; an uncaught exception inside it
skips sorting and the dialog. -/

structure PipeOut where
  extracted : List Node
  csvs : List Node
  pdfs : List Node
  events : List Event
  dialog : Bool
  crashed : Bool
deriving DecidableEq

def runPipeline (fuel : Nat) (src : List Node) : PipeOut :=
  let s := stageChildren src
  let staged1 := s.1 ++ [Node.dir "Merged" []]
  let stagedAll := staged1 ++ [Node.dir "Extracted" staged1]
  let stageEvents := s.2 ++ [Event.copied "Merged", Event.copied "Extracted"]
  let r := runFrom fuel (Node.dir "Extracted" stagedAll) [[]]
  if r.crashed then
    { extracted := r.fs.childrenOf, csvs := [], pdfs := [],
      events := stageEvents ++ r.events, dialog := false, crashed := true }
  else
    let o := organize r.fs.childrenOf
    { extracted := r.fs.childrenOf, csvs := o.csvs, pdfs := o.pdfs,
      events := stageEvents ++ r.events ++ o.events,
      dialog := r.stack.isEmpty, crashed := false }

/-! ## Denotational description of a completed unpacking run

`closeList cs` is the child list of a directory after the unpacker has
drained, assuming every extraction target is fresh: the original children
(with their subdirectories recursively unpacked) followed by one extraction
directory per `.zip`-named file, in listing order.  `eventsList` and
`dirPathsList` describe the log events and the directory paths of such a
run. -/

mutual

def closeNode : Node → Node
  | .dir n cs => .dir n (closeAll cs ++ closedTargets cs)
  | t => t

/-- The closed extraction target produced for one listing entry: an empty
directory for a corrupt archive, the recursively unpacked contents for a
valid one, nothing otherwise. -/
def targetOf : Node → List Node
  | .file n _ => if isZipName n then [Node.dir (stemOf n) []] else []
  | .zipFile n cts => if isZipName n then [Node.dir (stemOf n) (closeAll cts ++ closedTargets cts)] else []
  | .dir _ _ => []

def closeAll : List Node → List Node
  | [] => []
  | c :: cs => closeNode c :: closeAll cs

def closedTargets : List Node → List Node
  | [] => []
  | c :: cs => targetOf c ++ closedTargets cs

end

def closeList (cs : List Node) : List Node := closeAll cs ++ closedTargets cs

mutual

/-- All log events eventually produced for one listing entry and the work
items it spawns. -/
def evOfNode : Node → List Event
  | .file n _ => if isZipName n then [Event.badZip n] else []
  | .zipFile n cts => if isZipName n then Event.extracted n :: eventsList cts else []
  | .dir _ ds => eventsList ds

def eventsList : List Node → List Event
  | [] => []
  | c :: cs => evOfNode c ++ eventsList cs

end

mutual

/-- Paths of the directories at or below one child, relative to its parent. -/
def dpNode : Node → List Path
  | .dir n ds => [n] :: (dirPathsList ds).map (List.cons n)
  | _ => []

def dirPathsList : List Node → List Path
  | [] => []
  | c :: cs => dpNode c ++ dirPathsList cs

end

mutual

/-- Paths pushed onto the frontier for one listing entry, relative to its
parent: a subdirectory is pushed once when its parent is scanned, a
successfully extracted archive contributes its target directory once (and,
recursively, whatever that directory spawns), a corrupt archive and every
other file contribute nothing. -/
def ppNode : Node → List Path
  | .dir n ds => [n] :: (pushedList ds).map (List.cons n)
  | .zipFile n cts =>
    if isZipName n then [stemOf n] :: (pushedList cts).map (List.cons (stemOf n)) else []
  | .file _ _ => []

def pushedList : List Node → List Path
  | [] => []
  | c :: cs => ppNode c ++ pushedList cs

end

/-! ## Size measure (strings ignored) -/

mutual

def nodeW : Node → Nat
  | .file _ _ => 1
  | .zipFile _ cts => 1 + listW cts
  | .dir _ cs => 1 + listW cs

def listW : List Node → Nat
  | [] => 0
  | c :: cs => nodeW c + listW cs

end

/-! ## Well-formed trees

`freshL cs` holds when sibling names are distinct (as in a real directory),
the extraction target of every `.zip`-named file is absent and distinct
from the targets of its `.zip`-named siblings, and the same holds
recursively inside subdirectories and archive contents.  On such trees no
extraction ever merges into an existing directory. -/

def nodupStr : List String → Bool
  | [] => true
  | n :: ns => ns.all (fun x => x != n) && nodupStr ns

def namesNodup (cs : List Node) : Bool := nodupStr (cs.map Node.name)

/-- Extraction-target names of the `.zip`-named files of a listing. -/
def zipStems (cs : List Node) : List String :=
  cs.filterMap fun c =>
    match c with
    | .dir _ _ => none
    | c => if isZipName c.name then some (stemOf c.name) else none

def stemsOk (cs : List Node) : Bool :=
  nodupStr (zipStems cs) && (zipStems cs).all fun s => (childNamed s cs).isNone

mutual

def freshN : Node → Bool
  | .file _ _ => true
  | .zipFile _ cts => namesNodup cts && stemsOk cts && allFresh cts
  | .dir _ cs => namesNodup cs && stemsOk cs && allFresh cs

def allFresh : List Node → Bool
  | [] => true
  | c :: cs => freshN c && allFresh cs

end

def freshL (cs : List Node) : Bool := namesNodup cs && stemsOk cs && allFresh cs

/-! ## The nested-archive family: an archive containing an archive,
repeated N times, with a payload file innermost. -/

def nestZip : Nat → Node
  | 0 => .file "f.csv" "payload"
  | n + 1 => .zipFile "a.zip" [nestZip n]

/-! ## Shallow description of one scan (fresh targets) -/

/-- Whether a listing entry is a file whose name ends in `.zip` (the
entries that trigger the archive branch of the scan). -/
def isZipEntry : Node → Bool
  | .file n _ => isZipName n
  | .zipFile n _ => isZipName n
  | .dir _ _ => false

/-- The extraction directory appended by one scan for one entry, assuming
its target is absent: empty for a corrupt archive, the raw contents for a
valid one. -/
def stOf : Node → List Node
  | .file n _ => if isZipName n then [.dir (stemOf n) []] else []
  | .zipFile n cts => if isZipName n then [.dir (stemOf n) cts] else []
  | .dir _ _ => []

def shallowTargets : List Node → List Node
  | [] => []
  | c :: cs => stOf c ++ shallowTargets cs

/-- The names one scan pushes for one entry. -/
def pushOf : Node → List String
  | .file _ _ => []
  | .zipFile n _ => if isZipName n then [stemOf n] else []
  | .dir n _ => [n]

def pushNames : List Node → List String
  | [] => []
  | c :: cs => pushOf c ++ pushNames cs

/-- The log events one scan emits for one entry. -/
def evShallow : Node → List Event
  | .file n _ => if isZipName n then [Event.badZip n] else []
  | .zipFile n _ => if isZipName n then [Event.extracted n] else []
  | .dir _ _ => []

def scanEvs : List Node → List Event
  | [] => []
  | c :: cs => evShallow c ++ scanEvs cs

/-- Events produced by the runs on the subtrees named by a list of pushed
names, looked up in a fixed child list. -/
def evAt (CS : List Node) : List String → List Event
  | [] => []
  | m :: L =>
    (match childNamed m CS with
     | some t => eventsList t.childrenOf
     | none => []) ++ evAt CS L

/-- Paths pushed by the runs on the subtrees named by a list of pushed
names. -/
def puAt (CS : List Node) : List String → List Path
  | [] => []
  | m :: L =>
    (match childNamed m CS with
     | some t => pushedList t.childrenOf
     | none => []).map (List.cons m) ++ puAt CS L

/-- Close the subtrees with the given names, one after the other. -/
def closeAtNames : List String → List Node → List Node
  | [], CS => CS
  | m :: L, CS => closeAtNames L (modifyChild m closeNode CS)

/-! ## Trees without archives -/

mutual

def noZipN : Node → Bool
  | .file n _ => !isZipName n
  | .zipFile n _ => !isZipName n
  | .dir _ cs => noZipL cs

def noZipL : List Node → Bool
  | [] => true
  | c :: cs => noZipN c && noZipL cs

end

/-! ## Concrete scenarios used by the claims -/

/-- The C1 scenario source folder: `a.zip` (containing `b.zip`, which
contains `report.pdf` and `data.csv`) and a loose `notes.csv`. -/
def srcC1 : List Node :=
  [Node.zipFile "a.zip" [Node.zipFile "b.zip" [Node.file "report.pdf" "P", Node.file "data.csv" "C"]],
   Node.file "notes.csv" "N"]

/-- Source folder triggering the uncaught-exception path: a directory
holding a plain file `a` next to a valid empty archive `a.zip`, plus a
well-formed archive containing a csv. -/
def srcC7 : List Node :=
  [Node.dir "D" [Node.file "a" "x", Node.zipFile "a.zip" []],
   Node.zipFile "c.zip" [Node.file "data.csv" "D"]]

/-- A working area where the extraction target of `a.zip` already exists
and holds a file that the archive also contains. -/
def fsC9 : Node :=
  Node.dir "" [Node.zipFile "a.zip" [Node.file "b.zip" "new"], Node.dir "a" [Node.file "b.zip" "old"]]

/-- A working area where the extraction target of `a.zip` already exists as
a subdirectory of the same parent. -/
def csC5 : List Node := [Node.zipFile "a.zip" [Node.file "x" "1"], Node.dir "a" []]

/-- Two directories each holding a file named `data.csv`, with different
contents; `os.walk` finds both and the second `shutil.copy` into the flat
`All_CSVs` folder overwrites the first. -/
def srcC6 : List Node :=
  [Node.dir "r1" [Node.file "data.csv" "one"], Node.dir "r2" [Node.file "data.csv" "two"]]

/-- A small tree with pairwise-distinct file names: one csv, one pdf, one
unrecognized file. -/
def wsC6 : List Node :=
  [Node.dir "d" [Node.file "a.csv" "x", Node.file "b.pdf" "y", Node.file "c.txt" "z"]]

/-! ## Basic lemmas: child lookup and replacement -/

theorem childNamed_nil (m : String) : childNamed m [] = none := rfl

theorem nodupStr_iff {l : List String} : nodupStr l = true ↔ l.Nodup := by
  induction l with
  | nil => simp [nodupStr]
  | cons n ns ih =>
    simp only [nodupStr, Bool.and_eq_true, List.all_eq_true, bne_iff_ne, ne_eq,
      List.nodup_cons, ih]
    constructor
    · rintro ⟨h1, h2⟩
      exact ⟨fun hm => h1 n hm rfl, h2⟩
    · rintro ⟨h1, h2⟩
      exact ⟨fun x hx he => h1 (he ▸ hx), h2⟩

theorem childNamed_cons (m : String) (c : Node) (cs : List Node) :
    childNamed m (c :: cs) = if c.name == m then some c else childNamed m cs := by
  cases h : (c.name == m) with
  | true => simp [childNamed, List.find?, h]
  | false => simp [childNamed, List.find?, h]

theorem childNamed_name {m : String} {cs : List Node} {c : Node}
    (h : childNamed m cs = some c) : c.name = m := by
  induction cs with
  | nil => simp [childNamed_nil] at h
  | cons d ds ih =>
    rw [childNamed_cons] at h
    by_cases hd : d.name == m
    · simp [hd] at h; subst h; exact eq_of_beq hd
    · simp [hd] at h; exact ih h

theorem childNamed_mem {m : String} {cs : List Node} {c : Node}
    (h : childNamed m cs = some c) : c ∈ cs := by
  induction cs with
  | nil => simp [childNamed_nil] at h
  | cons d ds ih =>
    rw [childNamed_cons] at h
    by_cases hd : d.name == m
    · simp [hd] at h; subst h; exact List.mem_cons_self _ _
    · simp [hd] at h; exact List.mem_cons_of_mem _ (ih h)

theorem childNamed_append_left {m : String} {cs : List Node} {c : Node}
    (h : childNamed m cs = some c) (ds : List Node) :
    childNamed m (cs ++ ds) = some c := by
  induction cs with
  | nil => simp [childNamed_nil] at h
  | cons d cs ih =>
    rw [childNamed_cons] at h
    rw [List.cons_append, childNamed_cons]
    by_cases hd : d.name == m <;> simp [hd] at h ⊢
    · exact h
    · exact ih h

theorem childNamed_append_none {m : String} {cs : List Node}
    (h : childNamed m cs = none) (ds : List Node) :
    childNamed m (cs ++ ds) = childNamed m ds := by
  induction cs with
  | nil => simp
  | cons d cs ih =>
    rw [childNamed_cons] at h
    rw [List.cons_append, childNamed_cons]
    by_cases hd : d.name == m <;> simp [hd] at h ⊢
    exact ih h

theorem childNamed_none_iff {m : String} {cs : List Node} :
    childNamed m cs = none ↔ ∀ c ∈ cs, c.name ≠ m := by
  induction cs with
  | nil => simp [childNamed_nil]
  | cons d ds ih =>
    rw [childNamed_cons]
    by_cases hd : d.name == m <;> simp [hd, ih]
    · intro h; exact absurd (eq_of_beq hd) h
    · exact fun _ => by simpa using hd

theorem childNamed_append_single_none {m : String} {cs : List Node} {t : Node}
    (h : childNamed m cs = none) (ht : t.name ≠ m) :
    childNamed m (cs ++ [t]) = none := by
  rw [childNamed_append_none h, childNamed_cons, childNamed_nil]
  simp [ht]

theorem namesNodup_iff {cs : List Node} :
    namesNodup cs = true ↔ (cs.map Node.name).Nodup := nodupStr_iff

/-- On a duplicate-free listing, looking up the name of a member finds that
member. -/
theorem childNamed_self_of_nodup {cs : List Node} (hnd : namesNodup cs = true)
    {c : Node} (hc : c ∈ cs) : childNamed c.name cs = some c := by
  rw [namesNodup_iff] at hnd
  induction cs with
  | nil => simp at hc
  | cons d ds ih =>
    rw [List.map_cons, List.nodup_cons] at hnd
    rcases List.mem_cons.mp hc with h | h
    · subst h; rw [childNamed_cons]; simp
    · rw [childNamed_cons]
      have hne : d.name ≠ c.name := fun he =>
        hnd.1 (he ▸ List.mem_map_of_mem Node.name h)
      simp only [beq_iff_eq, hne, if_false]
      exact ih hnd.2 h

theorem modifyChild_of_none {m : String} {cs : List Node} (g : Node → Node)
    (h : childNamed m cs = none) : modifyChild m g cs = cs := by
  induction cs with
  | nil => rfl
  | cons d ds ih =>
    rw [childNamed_cons] at h
    cases hd : (d.name == m) with
    | true => simp [hd] at h
    | false =>
      rw [hd, if_neg (by simp)] at h
      simp [modifyChild, hd, ih h]

theorem modifyChild_congr {m : String} {cs : List Node} {c : Node} {g g' : Node → Node}
    (h : childNamed m cs = some c) (hg : g c = g' c) :
    modifyChild m g cs = modifyChild m g' cs := by
  induction cs with
  | nil => rfl
  | cons d ds ih =>
    rw [childNamed_cons] at h
    cases hd : (d.name == m) with
    | true =>
      rw [hd, if_pos rfl] at h
      cases h
      simp [modifyChild, hd, hg]
    | false =>
      rw [hd, if_neg (by simp)] at h
      simp [modifyChild, hd, ih h]

theorem modifyChild_id_of {m : String} {cs : List Node} {c : Node} {g : Node → Node}
    (h : childNamed m cs = some c) (hg : g c = c) : modifyChild m g cs = cs := by
  induction cs with
  | nil => rfl
  | cons d ds ih =>
    rw [childNamed_cons] at h
    cases hd : (d.name == m) with
    | true =>
      rw [hd, if_pos rfl] at h
      cases h
      simp [modifyChild, hd, hg]
    | false =>
      rw [hd, if_neg (by simp)] at h
      simp [modifyChild, hd, ih h]

theorem childNamed_modifyChild_self {m : String} {cs : List Node} {c : Node}
    (g : Node → Node) (h : childNamed m cs = some c) (hg : (g c).name = c.name) :
    childNamed m (modifyChild m g cs) = some (g c) := by
  induction cs with
  | nil => simp [childNamed_nil] at h
  | cons d ds ih =>
    rw [childNamed_cons] at h
    cases hd : (d.name == m) with
    | true =>
      rw [hd, if_pos rfl] at h
      cases h
      have hgd : ((g c).name == m) = true := by
        rw [hg]; exact hd
      simp [modifyChild, hd, childNamed_cons, hgd]
    | false =>
      rw [hd, if_neg (by simp)] at h
      simp [modifyChild, hd, childNamed_cons, ih h]

theorem childNamed_modifyChild_other {m m' : String} (hne : m' ≠ m) {cs : List Node}
    (g : Node → Node) (hg : ∀ c, (g c).name = c.name) :
    childNamed m' (modifyChild m g cs) = childNamed m' cs := by
  induction cs with
  | nil => rfl
  | cons d ds ih =>
    cases hd : (d.name == m) with
    | true =>
      have hdm : d.name = m := by simpa using hd
      have h1 : ((g d).name == m') = false := by
        simp [hg d, hdm, (Ne.symm hne)]
      have h2 : (d.name == m') = false := by simp [hdm, Ne.symm hne]
      simp [modifyChild, hd, childNamed_cons, h1, h2]
    | false =>
      simp [modifyChild, hd, childNamed_cons, ih]

theorem modifyChild_comp {m : String} {cs : List Node} {c : Node} {g1 g2 : Node → Node}
    (h : childNamed m cs = some c) (hg : (g2 c).name = c.name) :
    modifyChild m g1 (modifyChild m g2 cs) = modifyChild m (fun x => g1 (g2 x)) cs := by
  induction cs with
  | nil => rfl
  | cons d ds ih =>
    rw [childNamed_cons] at h
    cases hd : (d.name == m) with
    | true =>
      rw [hd, if_pos rfl] at h
      cases h
      have hgd : ((g2 c).name == m) = true := by rw [hg]; exact hd
      simp [modifyChild, hd, hgd]
    | false =>
      rw [hd, if_neg (by simp)] at h
      simp [modifyChild, hd, ih h]

theorem modifyChild_map_name {m : String} {cs : List Node} (g : Node → Node)
    (hg : ∀ c, (g c).name = c.name) :
    (modifyChild m g cs).map Node.name = cs.map Node.name := by
  induction cs with
  | nil => rfl
  | cons d ds ih =>
    cases hd : (d.name == m) with
    | true => simp [modifyChild, hd, hg]
    | false => simp [modifyChild, hd, ih]

/-! ## Lemmas about paths: resolving, replacing, modifying -/

theorem getAt_nil (t : Node) : getAt t [] = some t := by cases t <;> rfl

theorem setAt_nil (t fs : Node) : setAt [] t fs = t := by cases fs <;> rfl

theorem getAt_cons (n : String) (cs : List Node) (m : String) (p : Path) :
    getAt (Node.dir n cs) (m :: p) = (childNamed m cs).bind (fun c => getAt c p) := by
  cases h : childNamed m cs <;> simp [getAt, h]

theorem getAt_cons_file (n d : String) (m : String) (p : Path) :
    getAt (Node.file n d) (m :: p) = none := rfl

theorem getAt_cons_zip (n : String) (cts : List Node) (m : String) (p : Path) :
    getAt (Node.zipFile n cts) (m :: p) = none := rfl

theorem getAt_append (p q : Path) (t : Node) :
    getAt t (p ++ q) = (getAt t p).bind (fun s => getAt s q) := by
  induction p generalizing t with
  | nil => simp [getAt_nil]
  | cons m p ih =>
    cases t with
    | file n d => simp [getAt_cons_file]
    | zipFile n cts => simp [getAt_cons_zip]
    | dir n cs =>
      rw [List.cons_append, getAt_cons, getAt_cons]
      cases h : childNamed m cs with
      | none => simp
      | some c => simp [ih]

theorem modifyAt_name (p : Path) (f : List Node → List Node) (t : Node) :
    (modifyAt p f t).name = t.name := by
  cases p <;> cases t <;> simp [modifyAt, Node.name]

theorem setAt_name (p : Path) (t fs : Node) (h : p ≠ []) :
    (setAt p t fs).name = fs.name := by
  cases p with
  | nil => exact absurd rfl h
  | cons m q => cases fs <;> simp [setAt, Node.name]

/-- Writing back the subtree that is already there changes nothing. -/
theorem setAt_getAt_self {fs : Node} {p : Path} {T : Node}
    (h : getAt fs p = some T) : setAt p T fs = fs := by
  induction p generalizing fs with
  | nil => rw [getAt_nil] at h; cases h; rfl
  | cons m q ih =>
    cases fs with
    | file n d => simp [getAt_cons_file] at h
    | zipFile n cts => simp [getAt_cons_zip] at h
    | dir n cs =>
      rw [getAt_cons] at h
      cases hc : childNamed m cs with
      | none => simp [hc] at h
      | some c =>
        rw [hc] at h
        simp only [Option.some_bind] at h
        simp [setAt, modifyChild_id_of hc (ih h)]

theorem getAt_setAt {fs : Node} {p : Path} {T : Node}
    (h : getAt fs p = some T) {t' : Node} (hn : t'.name = T.name) :
    getAt (setAt p t' fs) p = some t' := by
  induction p generalizing fs T with
  | nil => rw [setAt_nil, getAt_nil]
  | cons m q ih =>
    cases fs with
    | file n d => simp [getAt_cons_file] at h
    | zipFile n cts => simp [getAt_cons_zip] at h
    | dir n cs =>
      rw [getAt_cons] at h
      cases hc : childNamed m cs with
      | none => simp [hc] at h
      | some c =>
        rw [hc] at h
        simp only [Option.some_bind] at h
        have hname : (setAt q t' c).name = c.name := by
          cases q with
          | nil =>
            rw [getAt_nil] at h; cases h
            simpa [setAt] using hn
          | cons x xs => exact setAt_name _ _ _ (by simp)
        rw [setAt, getAt_cons, childNamed_modifyChild_self _ hc hname]
        simpa using ih h hn

theorem setAt_setAt {fs : Node} {p : Path} {T : Node}
    (h : getAt fs p = some T) {a b : Node} (hb : b.name = T.name) :
    setAt p a (setAt p b fs) = setAt p a fs := by
  induction p generalizing fs T with
  | nil => rw [setAt_nil, setAt_nil]
  | cons m q ih =>
    cases fs with
    | file n d => simp [getAt_cons_file] at h
    | zipFile n cts => simp [getAt_cons_zip] at h
    | dir n cs =>
      rw [getAt_cons] at h
      cases hc : childNamed m cs with
      | none => simp [hc] at h
      | some c =>
        rw [hc] at h
        simp only [Option.some_bind] at h
        have hname : (setAt q b c).name = c.name := by
          cases q with
          | nil =>
            rw [getAt_nil] at h; cases h
            simpa [setAt] using hb
          | cons x xs => exact setAt_name _ _ _ (by simp)
        rw [setAt, setAt, setAt]
        congr 1
        rw [modifyChild_comp hc hname]
        exact modifyChild_congr hc (ih h hb)

/-! ## Relating `modifyAt` on an extended path to `setAt` -/

theorem modifyAt_append {fs : Node} {p : Path} {T : Node}
    (h : getAt fs p = some T) (q : Path) (f : List Node → List Node) :
    modifyAt (p ++ q) f fs = setAt p (modifyAt q f T) fs := by
  induction p generalizing fs T with
  | nil => rw [getAt_nil] at h; cases h; rw [setAt_nil]; rfl
  | cons m p ih =>
    cases fs with
    | file n d => simp [getAt_cons_file] at h
    | zipFile n cts => simp [getAt_cons_zip] at h
    | dir n cs =>
      rw [getAt_cons] at h
      cases hc : childNamed m cs with
      | none => simp [hc] at h
      | some c =>
        rw [hc] at h
        simp only [Option.some_bind] at h
        rw [List.cons_append, modifyAt, setAt]
        congr 1
        exact modifyChild_congr hc (ih h)

/-! ## Lemmas about the unpacking loop -/

theorem runFrom_zero (fs : Node) (st : List Path) :
    runFrom 0 fs st = ⟨fs, st, [], [], false⟩ := rfl

theorem runFrom_nil (f : Nat) (fs : Node) :
    runFrom f fs [] = ⟨fs, [], [], [], false⟩ := by cases f <;> rfl

theorem runFrom_succ_cons (f : Nat) (fs : Node) (p : Path) (rest : List Path) :
    runFrom (f + 1) fs (p :: rest) =
      match stepPop fs p with
      | none => ⟨fs, p :: rest, [], [], true⟩
      | some (fs1, ps, evs) =>
        let r := runFrom f fs1 (ps.reverse ++ rest)
        ⟨r.fs, r.stack, evs ++ r.events, ps ++ r.pushes, r.crashed⟩ := rfl

theorem runFrom_cons_none {fs : Node} {p : Path} (h : stepPop fs p = none)
    (f : Nat) (rest : List Path) :
    runFrom (f + 1) fs (p :: rest) = ⟨fs, p :: rest, [], [], true⟩ := by
  rw [runFrom_succ_cons, h]

theorem runFrom_cons_some {fs fs1 : Node} {p : Path} {ps : List Path} {evs : List Event}
    (h : stepPop fs p = some (fs1, ps, evs)) (f : Nat) (rest : List Path) :
    runFrom (f + 1) fs (p :: rest) =
      ⟨(runFrom f fs1 (ps.reverse ++ rest)).fs,
       (runFrom f fs1 (ps.reverse ++ rest)).stack,
       evs ++ (runFrom f fs1 (ps.reverse ++ rest)).events,
       ps ++ (runFrom f fs1 (ps.reverse ++ rest)).pushes,
       (runFrom f fs1 (ps.reverse ++ rest)).crashed⟩ := by
  rw [runFrom_succ_cons, h]

theorem stepPop_dir {fs : Node} {p : Path} {n : String} {cs : List Node}
    (h : getAt fs p = some (.dir n cs)) :
    stepPop fs p = some
      (modifyAt p (fun _ => (scanNames cs (cs.map Node.name)).children) fs,
       (scanNames cs (cs.map Node.name)).pushes.map (fun m => p ++ [m]),
       (scanNames cs (cs.map Node.name)).events) := by
  simp [stepPop, h]

theorem stepPop_none {fs : Node} {p : Path}
    (h : ∀ n cs, getAt fs p ≠ some (.dir n cs)) : stepPop fs p = none := by
  unfold stepPop
  cases hg : getAt fs p with
  | none => rfl
  | some t =>
    cases t with
    | file n d => rfl
    | zipFile n cts => rfl
    | dir n cs => exact absurd hg (h n cs)

/-- A drained run is unaffected by extra fuel. -/
theorem runFrom_mono : ∀ (f : Nat) {fs : Node} {st : List Path} {fs' : Node}
    {ev : List Event} {pu : List Path},
    runFrom f fs st = ⟨fs', [], ev, pu, false⟩ →
    ∀ k, runFrom (f + k) fs st = ⟨fs', [], ev, pu, false⟩ := by
  intro f
  induction f with
  | zero =>
    intro fs st fs' ev pu h k
    rw [runFrom_zero] at h
    cases h
    rw [Nat.zero_add, runFrom_nil]
  | succ f ih =>
    intro fs st fs' ev pu h k
    cases st with
    | nil =>
      rw [runFrom_nil] at h
      cases h
      rw [runFrom_nil]
    | cons p rest =>
      cases hstep : stepPop fs p with
      | none => rw [runFrom_cons_none hstep] at h; cases h
      | some out =>
        obtain ⟨fs1, ps, evs⟩ := out
        rw [runFrom_cons_some hstep] at h
        have hr : runFrom f fs1 (ps.reverse ++ rest)
            = ⟨(runFrom f fs1 (ps.reverse ++ rest)).fs, [],
               (runFrom f fs1 (ps.reverse ++ rest)).events,
               (runFrom f fs1 (ps.reverse ++ rest)).pushes, false⟩ := by
          have h2 := congrArg RunOut.stack h
          have h5 := congrArg RunOut.crashed h
          simp at h2 h5
          exact RunOut.ext rfl h2 rfl rfl h5
        have := ih hr k
        have harr : f + 1 + k = (f + k) + 1 := by omega
        rw [harr, runFrom_cons_some hstep, this]
        have h1 := congrArg RunOut.fs h
        have h3 := congrArg RunOut.events h
        have h4 := congrArg RunOut.pushes h
        simp at h1 h3 h4
        exact RunOut.ext h1 rfl (by simp [← h3]) (by simp [← h4]) rfl

/-- Two drained runs performed back to back drain the concatenated stack. -/
theorem runFrom_split : ∀ (f1 : Nat) {f2 : Nat} {fs fs1 fs2 : Node}
    {st1 st2 : List Path} {ev1 ev2 : List Event} {pu1 pu2 : List Path},
    runFrom f1 fs st1 = ⟨fs1, [], ev1, pu1, false⟩ →
    runFrom f2 fs1 st2 = ⟨fs2, [], ev2, pu2, false⟩ →
    runFrom (f1 + f2) fs (st1 ++ st2) = ⟨fs2, [], ev1 ++ ev2, pu1 ++ pu2, false⟩ := by
  intro f1
  induction f1 with
  | zero =>
    intro f2 fs fs1 fs2 st1 st2 ev1 ev2 pu1 pu2 h1 h2
    rw [runFrom_zero] at h1
    cases h1
    simpa using h2
  | succ f1 ih =>
    intro f2 fs fs1 fs2 st1 st2 ev1 ev2 pu1 pu2 h1 h2
    cases st1 with
    | nil =>
      rw [runFrom_nil] at h1
      cases h1
      have harr : f1 + 1 + f2 = f2 + (f1 + 1) := by omega
      rw [List.nil_append, harr]
      simpa using runFrom_mono f2 h2 (f1 + 1)
    | cons p rest =>
      cases hstep : stepPop fs p with
      | none => rw [runFrom_cons_none hstep] at h1; cases h1
      | some out =>
        obtain ⟨fsa, ps, evs⟩ := out
        rw [runFrom_cons_some hstep] at h1
        have hr : runFrom f1 fsa (ps.reverse ++ rest)
            = ⟨fs1, [], (runFrom f1 fsa (ps.reverse ++ rest)).events,
               (runFrom f1 fsa (ps.reverse ++ rest)).pushes, false⟩ := by
          have ha := congrArg RunOut.fs h1
          have hb := congrArg RunOut.stack h1
          have hc := congrArg RunOut.crashed h1
          simp at ha hb hc
          exact RunOut.ext ha hb rfl rfl hc
        have := ih hr h2
        have harr : f1 + 1 + f2 = (f1 + f2) + 1 := by omega
        rw [List.cons_append, harr, runFrom_cons_some hstep, ← List.append_assoc, this]
        have h3 := congrArg RunOut.events h1
        have h4 := congrArg RunOut.pushes h1
        simp at h3 h4
        exact RunOut.ext rfl rfl (by simp [← h3]) (by simp [← h4]) rfl

/-- Locality: a run whose stack lies entirely below a path only rewrites
the subtree at that path, and is the image of the run on the subtree. -/
theorem runFrom_graft : ∀ (f : Nat) (p : Path) {T : Node} (fs : Node) (st : List Path),
    getAt fs p = some T →
    runFrom f fs (st.map (fun q => p ++ q)) =
      ⟨setAt p (runFrom f T st).fs fs,
       (runFrom f T st).stack.map (fun q => p ++ q),
       (runFrom f T st).events,
       (runFrom f T st).pushes.map (fun q => p ++ q),
       (runFrom f T st).crashed⟩ := by
  intro f
  induction f with
  | zero =>
    intro p T fs st h
    simp [runFrom_zero, setAt_getAt_self h]
  | succ f ih =>
    intro p T fs st h
    cases st with
    | nil => simp [runFrom_nil, setAt_getAt_self h]
    | cons q st' =>
      rw [List.map_cons]
      cases hq : getAt T q with
      | none =>
        have hTq : getAt fs (p ++ q) = none := by
          rw [getAt_append, h]; simpa using hq
        have hs1 : stepPop fs (p ++ q) = none :=
          stepPop_none (fun n cs hcontra => by rw [hTq] at hcontra; cases hcontra)
        have hs2 : stepPop T q = none :=
          stepPop_none (fun n cs hcontra => by rw [hq] at hcontra; cases hcontra)
        rw [runFrom_cons_none hs1, runFrom_cons_none hs2]
        simp [setAt_getAt_self h]
      | some t =>
        have hTq : getAt fs (p ++ q) = some t := by
          rw [getAt_append, h]; simpa using hq
        cases t with
        | file nn dd =>
          have hs1 : stepPop fs (p ++ q) = none :=
            stepPop_none (fun n cs hcontra => by rw [hTq] at hcontra; cases hcontra)
          have hs2 : stepPop T q = none :=
            stepPop_none (fun n cs hcontra => by rw [hq] at hcontra; cases hcontra)
          rw [runFrom_cons_none hs1, runFrom_cons_none hs2]
          simp [setAt_getAt_self h]
        | zipFile nn cts =>
          have hs1 : stepPop fs (p ++ q) = none :=
            stepPop_none (fun n cs hcontra => by rw [hTq] at hcontra; cases hcontra)
          have hs2 : stepPop T q = none :=
            stepPop_none (fun n cs hcontra => by rw [hq] at hcontra; cases hcontra)
          rw [runFrom_cons_none hs1, runFrom_cons_none hs2]
          simp [setAt_getAt_self h]
        | dir nn cs =>
          set sc := scanNames cs (cs.map Node.name) with hsc
          have hs1 := stepPop_dir hTq
          have hs2 := stepPop_dir hq
          rw [runFrom_cons_some hs1, runFrom_cons_some hs2]
          set T1 := modifyAt q (fun _ => sc.children) T with hT1
          have hfs1 : modifyAt (p ++ q) (fun _ => sc.children) fs = setAt p T1 fs :=
            modifyAt_append h q _
          have hT1name : T1.name = T.name := modifyAt_name _ _ _
          have hget1 : getAt (setAt p T1 fs) p = some T1 := getAt_setAt h hT1name
          have hmap : (sc.pushes.map fun m => (p ++ q) ++ [m]) =
              (sc.pushes.map fun m => q ++ [m]).map (fun r => p ++ r) := by
            simp [List.map_map, List.append_assoc]
          have hstack : ((sc.pushes.map fun m => (p ++ q) ++ [m]).reverse ++
              st'.map (fun r => p ++ r)) =
              (((sc.pushes.map fun m => q ++ [m]).reverse ++ st').map fun r => p ++ r) := by
            rw [hmap, List.map_append, List.map_reverse]
          rw [hfs1, hstack]
          rw [ih p (setAt p T1 fs) ((sc.pushes.map fun m => q ++ [m]).reverse ++ st') hget1]
          rw [setAt_setAt h hT1name]
          simp [List.map_append, List.map_map, List.append_assoc]

/-! ## One scan on a fresh listing -/

theorem zipStems_cons (c : Node) (cs : List Node) :
    zipStems (c :: cs) =
      (if isZipEntry c then [stemOf c.name] else []) ++ zipStems cs := by
  cases c with
  | file n d =>
    cases h : isZipName n <;> simp [zipStems, isZipEntry, List.filterMap_cons, Node.name, h]
  | zipFile n cts =>
    cases h : isZipName n <;> simp [zipStems, isZipEntry, List.filterMap_cons, Node.name, h]
  | dir n ds => simp [zipStems, isZipEntry, List.filterMap_cons]

theorem mem_zipStems {d : Node} {ds : List Node} (hd : d ∈ ds)
    (hz : isZipEntry d = true) : stemOf d.name ∈ zipStems ds := by
  induction ds with
  | nil => simp at hd
  | cons c cs ih =>
    rw [zipStems_cons]
    rcases List.mem_cons.mp hd with h | h
    · subst h; simp [hz]
    · simp [ih h]

/-- Scanning a fresh listing: every entry of the snapshot is still found
under its name, every extraction target is absent and the targets are
pairwise distinct, so the scan appends exactly the fresh extraction
directories, pushes the subdirectories and the successful targets, and logs
one event per archive. -/
theorem scanNames_fresh : ∀ (ds L : List Node),
    (∀ d ∈ ds, childNamed d.name L = some d) →
    (∀ d ∈ ds, isZipEntry d = true → childNamed (stemOf d.name) L = none) →
    (zipStems ds).Nodup →
    scanNames L (ds.map Node.name) =
      ⟨L ++ shallowTargets ds, pushNames ds, scanEvs ds⟩ := by
  intro ds
  induction ds with
  | nil =>
    intro L _ _ _
    simp [scanNames, shallowTargets, pushNames, scanEvs]
  | cons d ds ih =>
    intro L h1 h2 h3
    have hfound : childNamed d.name L = some d := h1 d (List.mem_cons_self _ _)
    rw [zipStems_cons] at h3
    rw [List.map_cons]
    cases d with
    | file n dd =>
      simp only [Node.name] at hfound ⊢
      cases hzip : isZipName n with
      | false =>
        have : processName L n = ⟨L, [], []⟩ := by
          simp [processName, hfound, hzip]
        rw [scanNames, this]
        rw [ih L (fun d hd => h1 d (List.mem_cons_of_mem _ hd)) (fun d hd hz => h2 d (List.mem_cons_of_mem _ hd) hz)
          (by simpa [isZipEntry, hzip] using h3)]
        simp [shallowTargets, pushNames, scanEvs, stOf, pushOf, evShallow, hzip]
      | true =>
        have hz : isZipEntry (Node.file n dd) = true := by simp [isZipEntry, hzip]
        have hstem : childNamed (stemOf n) L = none := by
          simpa [Node.name] using h2 _ (List.mem_cons_self _ _) hz
        have hproc : processName L n = ⟨L ++ [.dir (stemOf n) []], [], [.badZip n]⟩ := by
          simp [processName, hfound, hzip, hstem]
        rw [scanNames, hproc]
        have h3' : (zipStems ds).Nodup ∧ stemOf n ∉ zipStems ds := by
          rw [hz] at h3
          simp only [Node.name] at h3
          constructor
          · exact (List.nodup_cons.mp (by simpa using h3)).2
          · exact (List.nodup_cons.mp (by simpa using h3)).1
        have h1' : ∀ d' ∈ ds, childNamed d'.name (L ++ [Node.dir (stemOf n) []]) = some d' :=
          fun d' hd' => childNamed_append_left (h1 d' (List.mem_cons_of_mem _ hd')) _
        have h2' : ∀ d' ∈ ds, isZipEntry d' = true →
            childNamed (stemOf d'.name) (L ++ [Node.dir (stemOf n) []]) = none := by
          intro d' hd' hz'
          refine childNamed_append_single_none (h2 d' (List.mem_cons_of_mem _ hd') hz') ?_
          simp only [Node.name]
          intro he
          exact h3'.2 (he ▸ mem_zipStems hd' hz')
        rw [ih _ h1' h2' h3'.1]
        simp [shallowTargets, pushNames, scanEvs, stOf, pushOf, evShallow, hzip, Node.name,
          List.append_assoc]
    | zipFile n cts =>
      simp only [Node.name] at hfound ⊢
      cases hzip : isZipName n with
      | false =>
        have : processName L n = ⟨L, [], []⟩ := by
          simp [processName, hfound, hzip]
        rw [scanNames, this]
        rw [ih L (fun d hd => h1 d (List.mem_cons_of_mem _ hd)) (fun d hd hz => h2 d (List.mem_cons_of_mem _ hd) hz)
          (by simpa [isZipEntry, hzip] using h3)]
        simp [shallowTargets, pushNames, scanEvs, stOf, pushOf, evShallow, hzip]
      | true =>
        have hz : isZipEntry (Node.zipFile n cts) = true := by simp [isZipEntry, hzip]
        have hstem : childNamed (stemOf n) L = none := by
          simpa [Node.name] using h2 _ (List.mem_cons_self _ _) hz
        have hproc : processName L n =
            ⟨L ++ [.dir (stemOf n) cts], [stemOf n], [.extracted n]⟩ := by
          simp [processName, hfound, hzip, hstem]
        rw [scanNames, hproc]
        have h3' : (zipStems ds).Nodup ∧ stemOf n ∉ zipStems ds := by
          rw [hz] at h3
          simp only [Node.name] at h3
          constructor
          · exact (List.nodup_cons.mp (by simpa using h3)).2
          · exact (List.nodup_cons.mp (by simpa using h3)).1
        have h1' : ∀ d' ∈ ds, childNamed d'.name (L ++ [Node.dir (stemOf n) cts]) = some d' :=
          fun d' hd' => childNamed_append_left (h1 d' (List.mem_cons_of_mem _ hd')) _
        have h2' : ∀ d' ∈ ds, isZipEntry d' = true →
            childNamed (stemOf d'.name) (L ++ [Node.dir (stemOf n) cts]) = none := by
          intro d' hd' hz'
          refine childNamed_append_single_none (h2 d' (List.mem_cons_of_mem _ hd') hz') ?_
          simp only [Node.name]
          intro he
          exact h3'.2 (he ▸ mem_zipStems hd' hz')
        rw [ih _ h1' h2' h3'.1]
        simp [shallowTargets, pushNames, scanEvs, stOf, pushOf, evShallow, hzip, Node.name,
          List.append_assoc]
    | dir n ds0 =>
      simp only [Node.name] at hfound ⊢
      have hproc : processName L n = ⟨L, [n], []⟩ := by
        simp [processName, hfound]
      rw [scanNames, hproc]
      rw [ih L (fun d hd => h1 d (List.mem_cons_of_mem _ hd)) (fun d hd hz => h2 d (List.mem_cons_of_mem _ hd) hz)
        (by simpa [isZipEntry] using h3)]
      simp [shallowTargets, pushNames, scanEvs, stOf, pushOf, evShallow]

/-! ## Closure basics -/

theorem closeNode_file (n d : String) : closeNode (.file n d) = .file n d := by
  simp [closeNode]

theorem closeNode_zip (n : String) (cts : List Node) :
    closeNode (.zipFile n cts) = .zipFile n cts := by
  simp [closeNode]

theorem closeNode_dir (n : String) (cs : List Node) :
    closeNode (.dir n cs) = .dir n (closeList cs) := by
  simp [closeNode, closeList]

theorem closeNode_name (c : Node) : (closeNode c).name = c.name := by
  cases c <;> simp [closeNode_file, closeNode_zip, closeNode_dir, Node.name]

theorem closeAll_eq_map (cs : List Node) : closeAll cs = cs.map closeNode := by
  induction cs with
  | nil => rfl
  | cons c cs ih => simp [closeAll, ih]

theorem closeAll_nil : closeList ([] : List Node) = [] := rfl

theorem closedTargets_eq (cs : List Node) :
    closedTargets cs = (shallowTargets cs).map closeNode := by
  induction cs with
  | nil => rfl
  | cons c cs ih =>
    rw [closedTargets, shallowTargets, List.map_append, ih]
    congr 1
    cases c with
    | file n d =>
      cases h : isZipName n <;>
        simp [targetOf, stOf, h, closeNode_dir, closeList, closeAll, closedTargets]
    | zipFile n cts =>
      cases h : isZipName n <;> simp [targetOf, stOf, h, closeNode_dir, closeList]
    | dir n ds => simp [targetOf, stOf]

/-! ## Freshness decomposition -/

theorem freshL_parts {cs : List Node} (h : freshL cs = true) :
    namesNodup cs = true ∧ stemsOk cs = true ∧ allFresh cs = true := by
  simp only [freshL, Bool.and_eq_true] at h
  exact ⟨h.1.1, h.1.2, h.2⟩

theorem allFresh_mem {cs : List Node} (h : allFresh cs = true) {c : Node} (hc : c ∈ cs) :
    freshN c = true := by
  induction cs with
  | nil => simp at hc
  | cons d ds ih =>
    simp only [allFresh, Bool.and_eq_true] at h
    rcases List.mem_cons.mp hc with he | he
    · subst he; exact h.1
    · exact ih h.2 he

theorem freshN_dir {n : String} {cs : List Node} :
    freshN (.dir n cs) = freshL cs := by
  simp [freshN, freshL]

theorem freshN_zip {n : String} {cts : List Node} :
    freshN (.zipFile n cts) = freshL cts := by
  simp [freshN, freshL]

theorem stemsOk_spec {cs : List Node} (h : stemsOk cs = true) :
    (zipStems cs).Nodup ∧ ∀ s ∈ zipStems cs, childNamed s cs = none := by
  simp only [stemsOk, Bool.and_eq_true, List.all_eq_true] at h
  exact ⟨nodupStr_iff.mp h.1, fun s hs => by
    have := h.2 s hs
    simpa [Option.isNone_iff_eq_none] using this⟩

/-! ## Weights -/

theorem listW_append (as bs : List Node) : listW (as ++ bs) = listW as + listW bs := by
  induction as with
  | nil => simp [listW]
  | cons c cs ih => simp [listW, ih]; omega

theorem nodeW_pos (c : Node) : 1 ≤ nodeW c := by
  cases c <;> simp only [nodeW] <;> omega

theorem listW_mem {c : Node} {cs : List Node} (h : c ∈ cs) : nodeW c ≤ listW cs := by
  induction cs with
  | nil => simp at h
  | cons d ds ih =>
    rcases List.mem_cons.mp h with he | he
    · subst he; simp only [listW]; omega
    · have h1 := ih he
      have h2 := nodeW_pos d
      simp only [listW]; omega

/-! ## The scanned listing with its fresh targets -/

theorem shallowTargets_names (cs : List Node) :
    (shallowTargets cs).map Node.name = zipStems cs := by
  induction cs with
  | nil => rfl
  | cons c cs ih =>
    rw [shallowTargets, List.map_append, ih, zipStems_cons]
    congr 1
    cases c with
    | file n d => cases h : isZipName n <;> simp [stOf, isZipEntry, h, Node.name]
    | zipFile n cts => cases h : isZipName n <;> simp [stOf, isZipEntry, h, Node.name]
    | dir n ds => simp [stOf, isZipEntry]

theorem namesNodup_scan {cs : List Node} (h : freshL cs = true) :
    namesNodup (cs ++ shallowTargets cs) = true := by
  obtain ⟨h1, h2, _⟩ := freshL_parts h
  obtain ⟨hs1, hs2⟩ := stemsOk_spec h2
  rw [namesNodup_iff, List.map_append, shallowTargets_names, List.nodup_append]
  refine ⟨namesNodup_iff.mp h1, hs1, ?_⟩
  intro a ha hb
  have := childNamed_none_iff.mp (hs2 a hb)
  obtain ⟨c, hc, hcn⟩ := List.mem_map.mp ha
  exact this c hc hcn

theorem childNamed_scan_self {cs : List Node} (h : freshL cs = true)
    {c : Node} (hc : c ∈ cs) :
    childNamed c.name (cs ++ shallowTargets cs) = some c :=
  childNamed_self_of_nodup (namesNodup_scan h) (List.mem_append_left _ hc)

theorem childNamed_scan_target {cs : List Node} (h : freshL cs = true)
    {t : Node} (ht : t ∈ shallowTargets cs) :
    childNamed t.name (cs ++ shallowTargets cs) = some t :=
  childNamed_self_of_nodup (namesNodup_scan h) (List.mem_append_right _ ht)

/-! ## Facts about the pushed names -/

theorem mem_pushNames_simple {m : String} {cs : List Node} :
    m ∈ pushNames cs ↔ ∃ c ∈ cs, m ∈ pushOf c := by
  induction cs with
  | nil => simp [pushNames]
  | cons c cs ih =>
    simp only [pushNames, List.mem_append, ih]
    constructor
    · rintro (h | ⟨d, hd, hm⟩)
      · exact ⟨c, List.mem_cons_self _ _, h⟩
      · exact ⟨d, List.mem_cons_of_mem _ hd, hm⟩
    · rintro ⟨d, hd, hm⟩
      rcases List.mem_cons.mp hd with he | he
      · subst he; exact Or.inl hm
      · exact Or.inr ⟨d, he, hm⟩

theorem pushOf_cases {m : String} {c : Node} (h : m ∈ pushOf c) :
    (∃ ds, c = Node.dir m ds) ∨
    (∃ n cts, c = Node.zipFile n cts ∧ isZipName n = true ∧ m = stemOf n) := by
  cases c with
  | file n d => simp [pushOf] at h
  | zipFile n cts =>
    cases hz : isZipName n with
    | false => simp [pushOf, hz] at h
    | true =>
      simp only [pushOf, hz, if_pos] at h
      simp only [List.mem_singleton] at h
      exact Or.inr ⟨n, cts, rfl, hz, h⟩
  | dir n ds =>
    simp only [pushOf, List.mem_singleton] at h
    exact Or.inl ⟨ds, by rw [h]⟩

theorem mem_shallowTargets {cs : List Node} {n : String} {cts : List Node}
    (hc : Node.zipFile n cts ∈ cs) (hz : isZipName n = true) :
    Node.dir (stemOf n) cts ∈ shallowTargets cs := by
  induction cs with
  | nil => simp at hc
  | cons d ds ih =>
    rw [shallowTargets]
    rcases List.mem_cons.mp hc with he | he
    · subst he; simp [stOf, hz]
    · exact List.mem_append_right _ (ih he)

/-- Every pushed name resolves, in the post-scan listing, to a fresh
directory strictly lighter than the scanned one. -/
theorem pushNames_spec {cs : List Node} (h : freshL cs = true)
    {m : String} (hm : m ∈ pushNames cs) :
    ∃ csm, childNamed m (cs ++ shallowTargets cs) = some (Node.dir m csm) ∧
      freshL csm = true ∧ 1 + listW csm ≤ listW cs := by
  obtain ⟨c, hc, hp⟩ := mem_pushNames_simple.mp hm
  obtain ⟨h1, h2, h3⟩ := freshL_parts h
  rcases pushOf_cases hp with ⟨ds, rfl⟩ | ⟨n, cts, rfl, hz, rfl⟩
  · refine ⟨ds, ?_, ?_, ?_⟩
    · have := childNamed_scan_self h hc
      simpa [Node.name] using this
    · have := allFresh_mem h3 hc
      rwa [freshN_dir] at this
    · have := listW_mem hc
      simpa [nodeW] using this
  · have htmem : Node.dir (stemOf n) cts ∈ shallowTargets cs :=
      mem_shallowTargets hc hz
    refine ⟨cts, ?_, ?_, ?_⟩
    · have := childNamed_scan_target h htmem
      simpa [Node.name] using this
    · have := allFresh_mem h3 hc
      rwa [freshN_zip] at this
    · have := listW_mem hc
      simpa [nodeW] using this

theorem stemsOk_of {cs : List Node} (h1 : (zipStems cs).Nodup)
    (h2 : ∀ s ∈ zipStems cs, childNamed s cs = none) : stemsOk cs = true := by
  simp only [stemsOk, Bool.and_eq_true, List.all_eq_true]
  exact ⟨nodupStr_iff.mpr h1, fun s hs => by simp [Option.isNone_iff_eq_none, h2 s hs]⟩

theorem freshL_of {cs : List Node} (h1 : namesNodup cs = true)
    (h2 : stemsOk cs = true) (h3 : allFresh cs = true) : freshL cs = true := by
  simp [freshL, h1, h2, h3]

theorem childNamed_cons_none {m : String} {c : Node} {cs : List Node}
    (h : childNamed m (c :: cs) = none) : c.name ≠ m ∧ childNamed m cs = none := by
  have h' := childNamed_none_iff.mp h
  exact ⟨h' c (List.mem_cons_self _ _),
    childNamed_none_iff.mpr fun d hd => h' d (List.mem_cons_of_mem _ hd)⟩

theorem namesNodup_tail {c : Node} {cs : List Node} (h : namesNodup (c :: cs) = true) :
    namesNodup cs = true ∧ c.name ∉ cs.map Node.name := by
  rw [namesNodup_iff, List.map_cons, List.nodup_cons] at h
  exact ⟨namesNodup_iff.mpr h.2, h.1⟩

theorem stemsOk_tail {c : Node} {cs : List Node} (h : stemsOk (c :: cs) = true) :
    stemsOk cs = true := by
  obtain ⟨h1, h2⟩ := stemsOk_spec h
  rw [zipStems_cons] at h1 h2
  refine stemsOk_of ?_ ?_
  · exact (List.nodup_append.mp h1).2.1
  · intro s hs
    exact (childNamed_cons_none (h2 s (List.mem_append_right _ hs))).2

theorem freshL_tail {c : Node} {cs : List Node} (h : freshL (c :: cs) = true) :
    freshL cs = true ∧ freshN c = true := by
  obtain ⟨h1, h2, h3⟩ := freshL_parts h
  simp only [allFresh, Bool.and_eq_true] at h3
  exact ⟨freshL_of (namesNodup_tail h1).1 (stemsOk_tail h2) h3.2, h3.1⟩

/-- Under freshness, the names pushed by one scan are pairwise distinct. -/
theorem pushNames_nodup {cs : List Node} (h : freshL cs = true) :
    (pushNames cs).Nodup := by
  induction cs with
  | nil => simp [pushNames]
  | cons c cs ih =>
    obtain ⟨htail, _⟩ := freshL_tail h
    obtain ⟨h1, h2, _⟩ := freshL_parts h
    obtain ⟨hst1, hst2⟩ := stemsOk_spec h2
    rw [pushNames, List.nodup_append]
    refine ⟨?_, ih htail, ?_⟩
    · cases c with
      | file n d => simp [pushOf]
      | zipFile n cts => cases hz : isZipName n <;> simp [pushOf, hz]
      | dir n ds => simp [pushOf]
    · intro m hm hm'
      obtain ⟨d, hd, hpd⟩ := mem_pushNames_simple.mp hm'
      rcases pushOf_cases hpd with ⟨ds, rfl⟩ | ⟨dn, dcts, rfl, hdz, rfl⟩
      · -- a subdirectory of the tail shares the pushed name
        rcases pushOf_cases hm with ⟨es, he⟩ | ⟨en, ects, he, hez, hes⟩
        · -- both directories: duplicate sibling names
          have hcn : c.name = m := by rw [he, Node.name]
          have hmem : m ∈ cs.map Node.name :=
            List.mem_map.mpr ⟨Node.dir m ds, hd, by simp [Node.name]⟩
          exact (namesNodup_tail h1).2 (by rw [hcn]; exact hmem)
        · -- the head is an archive whose target name is a directory name
          have hmem : m ∈ zipStems (c :: cs) := by
            rw [he] at hm ⊢
            rw [zipStems_cons]
            refine List.mem_append_left _ ?_
            simp [isZipEntry, hez, Node.name, hes]
          have := childNamed_none_iff.mp (hst2 m hmem)
          exact this (Node.dir m ds) (List.mem_cons_of_mem _ hd) rfl
      · -- a later archive of the tail shares the pushed (target) name
        have hmem : stemOf dn ∈ zipStems cs :=
          mem_zipStems hd (by simp [isZipEntry, hdz])
        rcases pushOf_cases hm with ⟨es, he⟩ | ⟨en, ects, he, hez, hes⟩
        · have := childNamed_none_iff.mp (hst2 _ (by
            rw [zipStems_cons]
            exact List.mem_append_right _ hmem))
          exact this c (List.mem_cons_self _ _) (by rw [he, Node.name])
        · have hhead : stemOf dn ∈ zipStems (c :: cs) := by
            rw [zipStems_cons]
            exact List.mem_append_right _ hmem
          rw [zipStems_cons] at hst1
          have hze : isZipEntry c = true := by rw [he]; simp [isZipEntry, hez]
          simp only [hze, if_true, List.singleton_append, List.nodup_cons] at hst1
          apply hst1.1
          have : stemOf c.name = stemOf dn := by rw [he, Node.name, hes]
          rw [← this] at hmem
          exact hmem

/-! ## Blocks of subtree events and pushes -/

theorem evAt_append (CS : List Node) (a b : List String) :
    evAt CS (a ++ b) = evAt CS a ++ evAt CS b := by
  induction a with
  | nil => simp [evAt]
  | cons m l ih => simp [evAt, ih]

theorem puAt_append (CS : List Node) (a b : List String) :
    puAt CS (a ++ b) = puAt CS a ++ puAt CS b := by
  induction a with
  | nil => simp [puAt]
  | cons m l ih => simp [puAt, ih]

theorem evAt_congr {CS CS' : List Node} {L : List String}
    (h : ∀ m ∈ L, childNamed m CS' = childNamed m CS) : evAt CS' L = evAt CS L := by
  induction L with
  | nil => rfl
  | cons m l ih =>
    rw [evAt, evAt, h m (List.mem_cons_self _ _),
      ih (fun m' hm' => h m' (List.mem_cons_of_mem _ hm'))]

theorem puAt_congr {CS CS' : List Node} {L : List String}
    (h : ∀ m ∈ L, childNamed m CS' = childNamed m CS) : puAt CS' L = puAt CS L := by
  induction L with
  | nil => rfl
  | cons m l ih =>
    rw [puAt, puAt, h m (List.mem_cons_self _ _),
      ih (fun m' hm' => h m' (List.mem_cons_of_mem _ hm'))]

theorem evAt_reverse_perm (CS : List Node) (L : List String) :
    (evAt CS L.reverse).Perm (evAt CS L) := by
  induction L with
  | nil => simp [evAt]
  | cons m l ih =>
    rw [List.reverse_cons, evAt_append]
    refine List.Perm.trans List.perm_append_comm ?_
    have h1 : evAt CS [m] ++ evAt CS l = evAt CS (m :: l) := by
      rw [← evAt_append]; rfl
    rw [← h1]
    exact List.Perm.append_left _ ih

theorem puAt_reverse_perm (CS : List Node) (L : List String) :
    (puAt CS L.reverse).Perm (puAt CS L) := by
  induction L with
  | nil => simp [puAt]
  | cons m l ih =>
    rw [List.reverse_cons, puAt_append]
    refine List.Perm.trans List.perm_append_comm ?_
    have h1 : puAt CS [m] ++ puAt CS l = puAt CS (m :: l) := by
      rw [← puAt_append]; rfl
    rw [← h1]
    exact List.Perm.append_left _ ih

/-! ## Closing named children as a pointwise map -/

theorem map_ite_of_no_match {m : String} (g : Node → Node) {cs : List Node}
    (h : ∀ c ∈ cs, c.name ≠ m) :
    cs.map (fun c => if c.name = m then g c else c) = cs := by
  induction cs with
  | nil => rfl
  | cons d ds ih =>
    have hd : d.name ≠ m := h d (List.mem_cons_self _ _)
    simp [hd, ih fun c hc => h c (List.mem_cons_of_mem _ hc)]

theorem modifyChild_eq_map {m : String} (g : Node → Node) {cs : List Node}
    (hnd : namesNodup cs = true) :
    modifyChild m g cs = cs.map (fun c => if c.name = m then g c else c) := by
  induction cs with
  | nil => rfl
  | cons d ds ih =>
    obtain ⟨hnd2, hni⟩ := namesNodup_tail hnd
    by_cases hdm : d.name = m
    · have hd : (d.name == m) = true := by simp [hdm]
      have htail : ∀ c ∈ ds, c.name ≠ m := fun c hc he => hni (by
        rw [hdm, ← he]
        exact List.mem_map.mpr ⟨c, hc, rfl⟩)
      simp [modifyChild, hd, hdm, map_ite_of_no_match g htail]
    · have hd : (d.name == m) = false := by simp [hdm]
      simp [modifyChild, hd, hdm, ih hnd2]

theorem closeAtNames_map : ∀ (L : List String) (CS : List Node), L.Nodup →
    namesNodup CS = true →
    closeAtNames L CS = CS.map (fun c => if c.name ∈ L then closeNode c else c) := by
  intro L
  induction L with
  | nil =>
    intro CS _ _
    simp [closeAtNames]
  | cons m L ih =>
    intro CS hLnd hnd
    rw [List.nodup_cons] at hLnd
    rw [closeAtNames]
    have hnd2 : namesNodup (modifyChild m closeNode CS) = true := by
      rw [namesNodup_iff, modifyChild_map_name closeNode closeNode_name]
      exact namesNodup_iff.mp hnd
    rw [ih _ hLnd.2 hnd2, modifyChild_eq_map closeNode hnd, List.map_map]
    refine List.map_congr_left fun c hc => ?_
    by_cases hcm : c.name = m
    · simp [Function.comp, hcm, closeNode_name, hLnd.1]
    · simp [Function.comp, hcm]

theorem mem_shallowTargets_cases {t : Node} {cs : List Node}
    (ht : t ∈ shallowTargets cs) :
    (∃ n, t = Node.dir (stemOf n) [] ∧ isZipName n = true) ∨
    (∃ n cts, t = Node.dir (stemOf n) cts ∧ Node.zipFile n cts ∈ cs ∧ isZipName n = true) := by
  induction cs with
  | nil => simp [shallowTargets] at ht
  | cons c cs ih =>
    rw [shallowTargets] at ht
    rcases List.mem_append.mp ht with h | h
    · cases c with
      | file n d =>
        cases hz : isZipName n <;> simp [stOf, hz] at h
        exact Or.inl ⟨n, h, hz⟩
      | zipFile n cts =>
        cases hz : isZipName n <;> simp [stOf, hz] at h
        exact Or.inr ⟨n, cts, h, List.mem_cons_self _ _, hz⟩
      | dir n ds => simp [stOf] at h
    · rcases ih h with h' | ⟨n, cts, he, hm, hz⟩
      · exact Or.inl h'
      · exact Or.inr ⟨n, cts, he, List.mem_cons_of_mem _ hm, hz⟩

/-- After one scan, closing every pushed subtree turns the listing into its
full closure. -/
theorem closeAtNames_assembled {cs : List Node} (h : freshL cs = true) :
    closeAtNames ((pushNames cs).reverse) (cs ++ shallowTargets cs) = closeList cs := by
  rw [closeAtNames_map _ _ (by simpa using pushNames_nodup h) (namesNodup_scan h),
    List.map_append, closeList, closeAll_eq_map, closedTargets_eq]
  congr 1
  · refine List.map_congr_left fun c hc => ?_
    cases c with
    | file n d => simp [closeNode_file]
    | zipFile n cts => simp [closeNode_zip]
    | dir n ds =>
      have hmem : (Node.dir n ds).name ∈ (pushNames cs).reverse := by
        rw [List.mem_reverse]
        exact mem_pushNames_simple.mpr ⟨_, hc, by simp [pushOf, Node.name]⟩
      simp [hmem]
  · refine List.map_congr_left fun t ht => ?_
    rcases mem_shallowTargets_cases ht with ⟨n, rfl, hz⟩ | ⟨n, cts, rfl, hm, hz⟩
    · have hid : closeNode (Node.dir (stemOf n) []) = Node.dir (stemOf n) [] := by
        rw [closeNode_dir]; rfl
      simp [hid]
    · have hmem : (Node.dir (stemOf n) cts).name ∈ (pushNames cs).reverse := by
        rw [List.mem_reverse]
        exact mem_pushNames_simple.mpr ⟨Node.zipFile n cts, hm, by simp [pushOf, hz, Node.name]⟩
      simp [hmem]

theorem appendSwapPerm {α : Type} (A S B T : List α) :
    ((A ++ S) ++ (B ++ T)).Perm ((A ++ B) ++ (S ++ T)) := by
  simp only [List.append_assoc]
  refine List.Perm.append_left A ?_
  rw [← List.append_assoc, ← List.append_assoc]
  exact List.Perm.append_right T List.perm_append_comm

/-- One scan plus the runs on what it pushed produce, up to order, the
events of the closure. -/
theorem evCombine : ∀ (ds CS : List Node),
    (∀ n dcs, Node.dir n dcs ∈ ds → childNamed n CS = some (Node.dir n dcs)) →
    (∀ n cts, Node.zipFile n cts ∈ ds → isZipName n = true →
      childNamed (stemOf n) CS = some (Node.dir (stemOf n) cts)) →
    (scanEvs ds ++ evAt CS (pushNames ds)).Perm (eventsList ds) := by
  intro ds
  induction ds with
  | nil =>
    intro CS _ _
    simp [scanEvs, pushNames, evAt, eventsList]
  | cons c cs ih =>
    intro CS hdir hzip
    rw [scanEvs, pushNames, evAt_append, eventsList]
    refine (appendSwapPerm _ _ _ _).trans ?_
    refine List.Perm.append ?_ (ih CS
      (fun n dcs hm => hdir n dcs (List.mem_cons_of_mem _ hm))
      (fun n cts hm hz => hzip n cts (List.mem_cons_of_mem _ hm) hz))
    cases c with
    | file n d =>
      cases hz : isZipName n <;>
        simp [evShallow, pushOf, evAt, evOfNode, hz]
    | zipFile n cts =>
      cases hz : isZipName n with
      | false => simp [evShallow, pushOf, evAt, evOfNode, hz]
      | true =>
        have hlook := hzip n cts (List.mem_cons_self _ _) hz
        simp [evShallow, pushOf, evAt, evOfNode, hz, hlook, Node.childrenOf]
    | dir n ds0 =>
      have hlook := hdir n ds0 (List.mem_cons_self _ _)
      simp [evShallow, pushOf, evAt, evOfNode, hlook, Node.childrenOf]

/-- One scan plus the runs on what it pushed push, up to order, every
directory the closure creates or contains, once each. -/
theorem puCombine : ∀ (ds CS : List Node),
    (∀ n dcs, Node.dir n dcs ∈ ds → childNamed n CS = some (Node.dir n dcs)) →
    (∀ n cts, Node.zipFile n cts ∈ ds → isZipName n = true →
      childNamed (stemOf n) CS = some (Node.dir (stemOf n) cts)) →
    ((pushNames ds).map (fun m => [m]) ++ puAt CS (pushNames ds)).Perm (pushedList ds) := by
  intro ds
  induction ds with
  | nil =>
    intro CS _ _
    simp [pushNames, puAt, pushedList]
  | cons c cs ih =>
    intro CS hdir hzip
    rw [pushNames, List.map_append, puAt_append, pushedList]
    refine (appendSwapPerm _ _ _ _).trans ?_
    refine List.Perm.append ?_ (ih CS
      (fun n dcs hm => hdir n dcs (List.mem_cons_of_mem _ hm))
      (fun n cts hm hz => hzip n cts (List.mem_cons_of_mem _ hm) hz))
    cases c with
    | file n d =>
      simp [pushOf, puAt, ppNode]
    | zipFile n cts =>
      cases hz : isZipName n with
      | false => simp [pushOf, puAt, ppNode, hz]
      | true =>
        have hlook := hzip n cts (List.mem_cons_self _ _) hz
        simp [pushOf, puAt, ppNode, hz, hlook, Node.childrenOf]
    | dir n ds0 =>
      have hlook := hdir n ds0 (List.mem_cons_self _ _)
      simp [pushOf, puAt, ppNode, hlook, Node.childrenOf]

/-- Draining a stack of distinct sibling names one at a time: each subtree
is closed in place, and the events and pushes are those of the subtree
runs. -/
theorem peel : ∀ (L : List String) (W : Nat) (n : String) (CS : List Node),
    (∀ (nm : String) (tcs : List Node), 1 + listW tcs ≤ W → freshL tcs = true →
      ∃ f ev pu, runFrom f (Node.dir nm tcs) [[]] =
          ⟨Node.dir nm (closeList tcs), [], ev, pu, false⟩ ∧
        ev.Perm (eventsList tcs) ∧ pu.Perm (pushedList tcs)) →
    L.Nodup →
    namesNodup CS = true →
    (∀ m ∈ L, ∃ csm, childNamed m CS = some (Node.dir m csm) ∧ freshL csm = true ∧
      1 + listW csm ≤ W) →
    ∃ f ev pu, runFrom f (Node.dir n CS) (L.map (fun m => [m])) =
        ⟨Node.dir n (closeAtNames L CS), [], ev, pu, false⟩ ∧
      ev.Perm (evAt CS L) ∧ pu.Perm (puAt CS L) := by
  intro L
  induction L with
  | nil =>
    intro W n CS _ _ _ _
    exact ⟨0, [], [], by simp [runFrom_zero, closeAtNames], by simp [evAt], by simp [puAt]⟩
  | cons m L ih =>
    intro W n CS SIH hnd hCSnd HM
    rw [List.nodup_cons] at hnd
    obtain ⟨csm, hlook, hfresh, hW⟩ := HM m (List.mem_cons_self _ _)
    obtain ⟨f₁, ev₁, pu₁, hrun₁, hev₁, hpu₁⟩ := SIH m csm hW hfresh
    have hget : getAt (Node.dir n CS) [m] = some (Node.dir m csm) := by
      rw [getAt_cons, hlook]
      simp [getAt_nil]
    have hgraft := runFrom_graft f₁ [m] (Node.dir n CS) [[]] hget
    rw [hrun₁] at hgraft
    simp only [List.map_cons, List.map_nil, List.append_nil] at hgraft
    have hset : setAt [m] (Node.dir m (closeList csm)) (Node.dir n CS)
        = Node.dir n (modifyChild m closeNode CS) := by
      rw [setAt]
      congr 1
      refine modifyChild_congr hlook ?_
      rw [setAt_nil, closeNode_dir]
    rw [hset] at hgraft
    have hlookup2 : ∀ m' ∈ L, childNamed m' (modifyChild m closeNode CS)
        = childNamed m' CS := by
      intro m' hm'
      exact childNamed_modifyChild_other (fun he => hnd.1 (by rw [← he]; exact hm'))
        closeNode closeNode_name
    have hCSnd2 : namesNodup (modifyChild m closeNode CS) = true := by
      rw [namesNodup_iff, modifyChild_map_name closeNode closeNode_name]
      exact namesNodup_iff.mp hCSnd
    have HM2 : ∀ m' ∈ L, ∃ csm', childNamed m' (modifyChild m closeNode CS)
        = some (Node.dir m' csm') ∧ freshL csm' = true ∧ 1 + listW csm' ≤ W := by
      intro m' hm'
      obtain ⟨c', hc1, hc2, hc3⟩ := HM m' (List.mem_cons_of_mem _ hm')
      exact ⟨c', by rw [hlookup2 m' hm']; exact hc1, hc2, hc3⟩
    obtain ⟨f₂, ev₂, pu₂, hrun₂, hev₂, hpu₂⟩ :=
      ih W n (modifyChild m closeNode CS) SIH hnd.2 hCSnd2 HM2
    have hsplit := runFrom_split f₁ hgraft hrun₂
    refine ⟨f₁ + f₂, ev₁ ++ ev₂, pu₁.map (fun q => [m] ++ q) ++ pu₂, ?_, ?_, ?_⟩
    · rw [List.map_cons]
      have : ([m] :: L.map (fun m' => [m'])) = [[m]] ++ L.map (fun m' => [m']) := rfl
      rw [this, hsplit]
      rfl
    · rw [evAt, hlook]
      refine List.Perm.append (by simpa [Node.childrenOf] using hev₁) ?_
      rw [← evAt_congr hlookup2]
      exact hev₂
    · rw [puAt, hlook]
      refine List.Perm.append ?_ ?_
      · have h1 : (pu₁.map (fun q => [m] ++ q)).Perm
            ((pushedList csm).map (fun q => [m] ++ q)) := hpu₁.map _
        have h2 : (pushedList csm).map (fun q => [m] ++ q)
            = (pushedList csm).map (List.cons m) := by
          refine List.map_congr_left fun q _ => ?_
          simp
        simpa [Node.childrenOf, h2] using h1
      · rw [← puAt_congr hlookup2]
        exact hpu₂

/-- The master theorem of the unpacker: on a fresh directory tree the loop
drains, produces exactly the closure, logs the closure events and pushes
each spawned directory once. -/
theorem unpack_master : ∀ (W : Nat) (n : String) (cs : List Node),
    1 + listW cs ≤ W → freshL cs = true →
    ∃ f ev pu, runFrom f (Node.dir n cs) [[]] =
        ⟨Node.dir n (closeList cs), [], ev, pu, false⟩ ∧
      ev.Perm (eventsList cs) ∧ pu.Perm (pushedList cs) := by
  intro W
  induction W with
  | zero =>
    intro n cs hW
    exact absurd hW (by omega)
  | succ W ihW =>
    intro n cs hW hfresh
    obtain ⟨h1, h2, _⟩ := freshL_parts hfresh
    obtain ⟨hz1, hz2⟩ := stemsOk_spec h2
    have hscan : scanNames cs (cs.map Node.name)
        = ⟨cs ++ shallowTargets cs, pushNames cs, scanEvs cs⟩ :=
      scanNames_fresh cs cs (fun d hd => childNamed_self_of_nodup h1 hd)
        (fun d hd hz => hz2 _ (mem_zipStems hd hz)) hz1
    have hget : getAt (Node.dir n cs) [] = some (Node.dir n cs) := getAt_nil _
    have hstep := stepPop_dir hget
    rw [hscan] at hstep
    simp only [List.nil_append, modifyAt] at hstep
    have hdirlook : ∀ nd dcs, Node.dir nd dcs ∈ cs →
        childNamed nd (cs ++ shallowTargets cs) = some (Node.dir nd dcs) := by
      intro nd dcs hmem
      have := childNamed_scan_self hfresh hmem
      simpa [Node.name] using this
    have hziplook : ∀ nz cts, Node.zipFile nz cts ∈ cs → isZipName nz = true →
        childNamed (stemOf nz) (cs ++ shallowTargets cs)
          = some (Node.dir (stemOf nz) cts) := by
      intro nz cts hmem hz
      have := childNamed_scan_target hfresh (mem_shallowTargets hmem hz)
      simpa [Node.name] using this
    obtain ⟨f₂, ev₂, pu₂, hrun₂, hev₂, hpu₂⟩ :=
      peel ((pushNames cs).reverse) W n (cs ++ shallowTargets cs) ihW
        (by simpa using pushNames_nodup hfresh)
        (namesNodup_scan hfresh)
        (by
          intro m hm
          obtain ⟨csm, ha, hb, hc⟩ := pushNames_spec hfresh (List.mem_reverse.mp hm)
          exact ⟨csm, ha, hb, by omega⟩)
    refine ⟨f₂ + 1, scanEvs cs ++ ev₂, (pushNames cs).map (fun m => [m]) ++ pu₂, ?_, ?_, ?_⟩
    · rw [runFrom_cons_some hstep f₂ []]
      have hstack : ((pushNames cs).map (fun m => [m])).reverse ++ ([] : List Path)
          = ((pushNames cs).reverse).map (fun m => [m]) := by
        simp [List.map_reverse]
      rw [hstack, hrun₂, closeAtNames_assembled hfresh]
    · refine List.Perm.trans (List.Perm.append_left _ ?_)
        (evCombine cs (cs ++ shallowTargets cs) hdirlook hziplook)
      exact hev₂.trans (evAt_reverse_perm _ _)
    · refine List.Perm.trans (List.Perm.append_left _ ?_)
        (puCombine cs (cs ++ shallowTargets cs) hdirlook hziplook)
      exact hpu₂.trans (puAt_reverse_perm _ _)

theorem mem_ppNode_head {q : Path} {c : Node} (h : q ∈ ppNode c) :
    ∃ hd r, q = hd :: r ∧ hd ∈ pushOf c := by
  cases c with
  | file n d => simp [ppNode] at h
  | zipFile n cts =>
    cases hz : isZipName n with
    | false => simp [ppNode, hz] at h
    | true =>
      simp only [ppNode, hz, if_pos, List.mem_cons] at h
      rcases h with h | h
      · exact ⟨stemOf n, [], h, by simp [pushOf, hz]⟩
      · obtain ⟨r, _, hr⟩ := List.mem_map.mp h
        exact ⟨stemOf n, r, hr.symm, by simp [pushOf, hz]⟩
  | dir n ds =>
    simp only [ppNode, List.mem_cons] at h
    rcases h with h | h
    · exact ⟨n, [], h, by simp [pushOf]⟩
    · obtain ⟨r, _, hr⟩ := List.mem_map.mp h
      exact ⟨n, r, hr.symm, by simp [pushOf]⟩

theorem mem_pushedList_head {q : Path} {cs : List Node} (h : q ∈ pushedList cs) :
    ∃ hd r, q = hd :: r ∧ hd ∈ pushNames cs := by
  induction cs with
  | nil => simp [pushedList] at h
  | cons c cs ih =>
    rw [pushedList] at h
    rcases List.mem_append.mp h with h | h
    · obtain ⟨hd, r, he, hp⟩ := mem_ppNode_head h
      exact ⟨hd, r, he, by rw [pushNames]; exact List.mem_append_left _ hp⟩
    · obtain ⟨hd, r, he, hp⟩ := ih h
      exact ⟨hd, r, he, by rw [pushNames]; exact List.mem_append_right _ hp⟩

/-- Under freshness every frontier path generated by a full run is
generated exactly once. -/
theorem pushedList_nodup : ∀ (k : Nat) (cs : List Node), listW cs < k →
    freshL cs = true → (pushedList cs).Nodup := by
  intro k
  induction k with
  | zero => intro cs h; exact absurd h (by omega)
  | succ k ihk =>
    intro cs hk hf
    induction cs with
    | nil => simp [pushedList]
    | cons c cs ihc =>
      obtain ⟨htail, hcf⟩ := freshL_tail hf
      have hWc : 1 ≤ nodeW c := nodeW_pos c
      rw [listW] at hk
      rw [pushedList, List.nodup_append]
      have hdisj := List.nodup_append.mp (pushNames_nodup hf)
      refine ⟨?_, ?_, ?_⟩
      · -- the head block is duplicate-free
        cases c with
        | file n d => simp [ppNode]
        | zipFile n cts =>
          cases hz : isZipName n with
          | false => simp [ppNode, hz]
          | true =>
            have hfr : freshL cts = true := by rwa [freshN_zip] at hcf
            have hsub : (pushedList cts).Nodup := by
              refine ihk cts ?_ hfr
              simp only [nodeW] at hk ⊢
              omega
            simp only [ppNode, hz, if_pos, List.nodup_cons]
            refine ⟨?_, hsub.map (fun a b hab => by simpa using hab)⟩
            intro hmem
            obtain ⟨r, hr, he⟩ := List.mem_map.mp hmem
            obtain ⟨hd2, r2, he2, _⟩ := mem_pushedList_head hr
            rw [he2] at he
            simp at he
        | dir n ds =>
          have hfr : freshL ds = true := by rwa [freshN_dir] at hcf
          have hsub : (pushedList ds).Nodup := by
            refine ihk ds ?_ hfr
            simp only [nodeW] at hk ⊢
            omega
          simp only [ppNode, List.nodup_cons]
          refine ⟨?_, hsub.map (fun a b hab => by simpa using hab)⟩
          intro hmem
          obtain ⟨r, hr, he⟩ := List.mem_map.mp hmem
          obtain ⟨hd2, r2, he2, _⟩ := mem_pushedList_head hr
          rw [he2] at he
          simp at he
      · exact ihc (by omega) htail
      · -- blocks of different entries are disjoint
        intro q hq hq'
        obtain ⟨hd1, r1, he1, hp1⟩ := mem_ppNode_head hq
        obtain ⟨hd2, r2, he2, hp2⟩ := mem_pushedList_head hq'
        rw [he1] at he2
        cases he2
        exact hdisj.2.2 hp1 hp2

theorem dirPathsList_append (a b : List Node) :
    dirPathsList (a ++ b) = dirPathsList a ++ dirPathsList b := by
  induction a with
  | nil => simp [dirPathsList]
  | cons c cs ih => simp [dirPathsList, ih]

theorem mem_closedTargets {cs : List Node} {n : String} {cts : List Node}
    (hc : Node.zipFile n cts ∈ cs) (hz : isZipName n = true) :
    Node.dir (stemOf n) (closeList cts) ∈ closedTargets cs := by
  rw [closedTargets_eq]
  refine List.mem_map.mpr ⟨Node.dir (stemOf n) cts, mem_shallowTargets hc hz, ?_⟩
  rw [closeNode_dir]

/-- Every pushed frontier path is a directory of the final tree. -/
theorem pushedList_sub_dirPaths : ∀ (k : Nat) (cs : List Node), listW cs < k →
    ∀ q ∈ pushedList cs, q ∈ dirPathsList (closeList cs) := by
  intro k
  induction k with
  | zero => intro cs h; exact absurd h (by omega)
  | succ k ihk =>
    intro cs hk
    induction cs with
    | nil => simp [pushedList]
    | cons c cs ihc =>
      intro q hq
      rw [listW] at hk
      have hWc : 1 ≤ nodeW c := nodeW_pos c
      have hsplit : closeList (c :: cs) = (closeNode c :: closeAll cs)
          ++ (targetOf c ++ closedTargets cs) := by
        rw [closeList, closeAll, closedTargets]
      rw [hsplit, dirPathsList_append, dirPathsList, dirPathsList_append]
      rw [pushedList] at hq
      rcases List.mem_append.mp hq with h | h
      · -- pushed by the head entry
        cases c with
        | file n d => simp [ppNode] at h
        | zipFile n cts =>
          cases hz : isZipName n with
          | false => simp [ppNode, hz] at h
          | true =>
            refine List.mem_append.mpr (Or.inr (List.mem_append.mpr (Or.inl ?_)))
            have htg : targetOf (Node.zipFile n cts)
                = [Node.dir (stemOf n) (closeList cts)] := by
              simp [targetOf, hz, closeList]
            rw [htg, dirPathsList, dpNode, dirPathsList]
            simp only [ppNode, hz, if_pos, List.mem_cons] at h
            rcases h with h | h
            · exact List.mem_append.mpr (Or.inl (by simp [h]))
            · obtain ⟨r, hr, he⟩ := List.mem_map.mp h
              refine List.mem_append.mpr (Or.inl (List.mem_cons.mpr (Or.inr ?_)))
              have := ihk cts (by simp only [nodeW] at hk; omega) r hr
              exact List.mem_map.mpr ⟨r, this, he⟩
        | dir n ds =>
          refine List.mem_append.mpr (Or.inl ?_)
          rw [closeNode_dir, dpNode]
          simp only [ppNode, List.mem_cons] at h
          rcases h with h | h
          · exact List.mem_append.mpr (Or.inl (by simp [h]))
          · obtain ⟨r, hr, he⟩ := List.mem_map.mp h
            refine List.mem_append.mpr (Or.inl (List.mem_cons.mpr (Or.inr ?_)))
            have := ihk ds (by simp only [nodeW] at hk; omega) r hr
            exact List.mem_map.mpr ⟨r, this, he⟩
      · -- pushed by the tail
        have := ihc (by omega) q h
        rw [closeList, dirPathsList_append] at this
        rcases List.mem_append.mp this with h' | h'
        · exact List.mem_append.mpr (Or.inl (List.mem_append.mpr (Or.inr h')))
        · exact List.mem_append.mpr (Or.inr (List.mem_append.mpr (Or.inr h')))

/-! ## The nested-archive family -/

theorem freshL_single_zip (cts : List Node) :
    freshL [Node.zipFile "a.zip" cts] = freshL cts := by
  have h1 : isZipName "a.zip" = true := by decide
  have h2 : stemOf "a.zip" = "a" := by decide
  have h3 : ("a.zip" == "a") = false := by decide
  rw [freshL, freshL]
  have hn : namesNodup [Node.zipFile "a.zip" cts] = true := by
    simp [namesNodup, Node.name, nodupStr]
  have hs : stemsOk [Node.zipFile "a.zip" cts] = true := by
    simp [stemsOk, zipStems, List.filterMap, Node.name, h1, h2, nodupStr,
      childNamed_cons, childNamed_nil, h3]
  rw [hn, hs]
  simp [allFresh, freshN_zip, freshL]

theorem fresh_nest : ∀ N, freshL [nestZip N] = true := by
  intro N
  induction N with
  | zero => decide
  | succ M ih =>
    rw [nestZip, freshL_single_zip]
    exact ih

theorem closeList_nest (M : Nat) :
    closeList [nestZip (M + 1)] = [nestZip (M + 1), Node.dir "a" (closeList [nestZip M])] := by
  have h1 : isZipName "a.zip" = true := by decide
  have h2 : stemOf "a.zip" = "a" := by decide
  rw [closeList]
  rw [nestZip]
  simp [closeAll, closedTargets, targetOf, closeNode_zip, h1, h2, closeList]

theorem closeList_nest_zero : closeList [nestZip 0] = [Node.file "f.csv" "payload"] := by decide

/-- The chain of extraction directories of the unpacked nested family. -/
theorem getAt_nest_chain : ∀ (k M : Nat) (nm : String), k + 1 ≤ M →
    getAt (Node.dir nm (closeList [nestZip M])) (List.replicate (k + 1) "a")
      = some (Node.dir "a" (closeList [nestZip (M - (k + 1))])) := by
  intro k
  induction k with
  | zero =>
    intro M nm hM
    obtain ⟨M', rfl⟩ : ∃ M', M = M' + 1 := ⟨M - 1, by omega⟩
    rw [closeList_nest, nestZip]
    have hb : ("a.zip" == "a") = false := by decide
    simp [List.replicate, getAt_cons, childNamed_cons, Node.name, hb, getAt_nil]
  | succ k ih =>
    intro M nm hM
    obtain ⟨M', rfl⟩ : ∃ M', M = M' + 1 := ⟨M - 1, by omega⟩
    have hrep : List.replicate (k + 2) "a" = "a" :: List.replicate (k + 1) "a" := rfl
    rw [closeList_nest, nestZip, hrep, getAt_cons]
    have hb : ("a.zip" == "a") = false := by decide
    have hidx : M' - (k + 1) = M' + 1 - (k + 1 + 1) := by omega
    simp only [childNamed_cons, Node.name, hb, Bool.false_eq_true, if_false,
      beq_self_eq_true, if_true, Option.some_bind]
    rw [ih M' "a" (by omega), hidx]

/-- The payload file sits below the innermost extraction directory. -/
theorem getAt_nest_payload : ∀ (M : Nat) (nm : String),
    getAt (Node.dir nm (closeList [nestZip M])) (List.replicate M "a" ++ ["f.csv"])
      = some (Node.file "f.csv" "payload") := by
  intro M nm
  cases M with
  | zero =>
    rw [closeList_nest_zero]
    simp [List.replicate, getAt_cons, childNamed_cons, Node.name, getAt_nil]
  | succ M' =>
    rw [getAt_append, getAt_nest_chain M' (M' + 1) nm (by omega)]
    have hz : (M' + 1) - (M' + 1) = 0 := by omega
    rw [hz, closeList_nest_zero]
    simp [getAt_cons, childNamed_cons, Node.name, getAt_nil]

/-! ## Zip-free trees are fixed points -/

theorem noZipL_parts {c : Node} {cs : List Node} (h : noZipL (c :: cs) = true) :
    noZipN c = true ∧ noZipL cs = true := by
  simpa [noZipL, Bool.and_eq_true] using h

theorem closeList_noZip : ∀ (k : Nat) (cs : List Node), listW cs < k →
    noZipL cs = true → closeList cs = cs := by
  intro k
  induction k with
  | zero => intro cs h; exact absurd h (by omega)
  | succ k ihk =>
    intro cs hk hz
    induction cs with
    | nil => rfl
    | cons c cs ihc =>
      obtain ⟨hc, hcs⟩ := noZipL_parts hz
      rw [listW] at hk
      have hWc := nodeW_pos c
      have htg : targetOf c = [] := by
        cases c with
        | file n d =>
          simp only [noZipN, Bool.not_eq_true'] at hc
          simp [targetOf, hc]
        | zipFile n cts =>
          simp only [noZipN, Bool.not_eq_true'] at hc
          simp [targetOf, hc]
        | dir n ds => simp [targetOf]
      have hcn : closeNode c = c := by
        cases c with
        | file n d => exact closeNode_file n d
        | zipFile n cts => exact closeNode_zip n cts
        | dir n ds =>
          rw [closeNode_dir]
          have : closeList ds = ds := by
            refine ihk ds ?_ (by simpa [noZipN] using hc)
            simp only [nodeW] at hk
            omega
          rw [this]
      have htail : closeList cs = cs := ihc (by omega) hcs
      rw [closeList, closeAll, closedTargets, htg, hcn]
      rw [closeList] at htail
      simp only [List.nil_append]
      rw [List.cons_append, htail]

theorem eventsList_noZip : ∀ (k : Nat) (cs : List Node), listW cs < k →
    noZipL cs = true → eventsList cs = [] := by
  intro k
  induction k with
  | zero => intro cs h; exact absurd h (by omega)
  | succ k ihk =>
    intro cs hk hz
    induction cs with
    | nil => rfl
    | cons c cs ihc =>
      obtain ⟨hc, hcs⟩ := noZipL_parts hz
      rw [listW] at hk
      have hWc := nodeW_pos c
      have hhd : evOfNode c = [] := by
        cases c with
        | file n d =>
          simp only [noZipN, Bool.not_eq_true'] at hc
          simp [evOfNode, hc]
        | zipFile n cts =>
          simp only [noZipN, Bool.not_eq_true'] at hc
          simp [evOfNode, hc]
        | dir n ds =>
          rw [evOfNode]
          refine ihk ds ?_ (by simpa [noZipN] using hc)
          simp only [nodeW] at hk
          omega
      rw [eventsList, hhd, ihc (by omega) hcs]
      rfl

/-! ## Preservation of files by the closure -/

theorem childNamed_closeAll {m : String} {cs : List Node} {c : Node}
    (h : childNamed m cs = some c) :
    childNamed m (closeAll cs) = some (closeNode c) := by
  induction cs with
  | nil => simp [childNamed_nil] at h
  | cons d ds ih =>
    rw [childNamed_cons] at h
    rw [closeAll, childNamed_cons]
    cases hd : (d.name == m) with
    | true =>
      rw [hd, if_pos rfl] at h
      cases h
      have : ((closeNode c).name == m) = true := by rw [closeNode_name]; exact hd
      rw [this, if_pos rfl]
    | false =>
      rw [hd, if_neg (by simp)] at h
      have : ((closeNode d).name == m) = false := by rw [closeNode_name]; exact hd
      rw [this, if_neg (by simp)]
      exact ih h

theorem getAt_closeNode_preserve : ∀ (p : Path) (t s : Node), getAt t p = some s →
    (∀ nm ds, s ≠ Node.dir nm ds) → getAt (closeNode t) p = some s := by
  intro p
  induction p with
  | nil =>
    intro t s h hs
    rw [getAt_nil] at h
    cases h
    cases t with
    | file n d => rw [closeNode_file, getAt_nil]
    | zipFile n cts => rw [closeNode_zip, getAt_nil]
    | dir n ds => exact absurd rfl (hs n ds)
  | cons m q ih =>
    intro t s h hs
    cases t with
    | file n d => simp [getAt_cons_file] at h
    | zipFile n cts => simp [getAt_cons_zip] at h
    | dir n cs =>
      rw [getAt_cons] at h
      cases hc : childNamed m cs with
      | none => simp [hc] at h
      | some c =>
        rw [hc] at h
        simp only [Option.some_bind] at h
        rw [closeNode_dir, getAt_cons, closeList,
          childNamed_append_left (childNamed_closeAll hc)]
        simp only [Option.some_bind]
        exact ih c s h hs

/-! ## Merging an archive back into its own unpacked target -/

theorem mergeList_single (old : List Node) (e : Node) :
    mergeList old [e] = mergeEntry old e := rfl

theorem merge_nest : ∀ N, mergeList (closeList [nestZip N]) [nestZip N]
    = closeList [nestZip N] := by
  intro N
  cases N with
  | zero => decide
  | succ M =>
    rw [mergeList_single, closeList_nest, nestZip]
    have hfind : childNamed "a.zip"
        [Node.zipFile "a.zip" [nestZip M], Node.dir "a" (closeList [nestZip M])]
        = some (Node.zipFile "a.zip" [nestZip M]) := by
      simp [childNamed_cons, Node.name]
    rfl

/-! ## Claim C1 -/

/-- C1 is false as stated: after the full pipeline on the C1 scenario, no
file named `notes.csv` is in `Merged/All_CSVs` (the stager copies only
directories and `.zip` files, so the loose `notes.csv` is never staged). -/
theorem c1_notes_csv_lost :
    (runPipeline 30 srcC1).csvs.filter (fun c => c.name == "notes.csv") = [] := by decide

/-- C1 (amended): the pipeline on the C1 scenario produces
`Extracted/a/b/report.pdf` and `Extracted/a/b/data.csv`, puts `report.pdf`
into `Merged/All_PDFs` and `data.csv` into `Merged/All_CSVs`, and shows the
completion dialog; the loose `notes.csv`, however, is lost: being neither a
directory nor a `.zip` file it is never staged, so it never reaches
`Merged/All_CSVs`. -/
theorem c1_scenario_amended :
    getAt (Node.dir "" (runPipeline 30 srcC1).extracted) ["a", "b", "report.pdf"]
        = some (Node.file "report.pdf" "P")
      ∧ getAt (Node.dir "" (runPipeline 30 srcC1).extracted) ["a", "b", "data.csv"]
        = some (Node.file "data.csv" "C")
      ∧ Node.file "report.pdf" "P" ∈ (runPipeline 30 srcC1).pdfs
      ∧ Node.file "data.csv" "C" ∈ (runPipeline 30 srcC1).csvs
      ∧ (∀ c ∈ (runPipeline 30 srcC1).csvs, c.name ≠ "notes.csv")
      ∧ (runPipeline 30 srcC1).dialog = true := by decide

/-! ## Claim C2 -/

/-- C2 is false as stated: a source folder holding only the plain file
`a.txt` stages nothing at all, instead of copying every file. -/
theorem c2_plain_files_not_staged :
    (stageChildren [Node.file "a.txt" "x"]).1 = [] := by decide

/-- C2 (amended): staging copies only directories and `.zip`-named files,
so from a folder whose children are all plain non-archive files it copies
none of them; and unpacking any tree (with distinct sibling names and fresh
targets) that contains no `.zip`-named file leaves the tree unchanged and
logs nothing. -/
theorem c2_staging_skips_and_unpack_noop :
    (∀ cs : List Node, (∀ c ∈ cs, ∃ nm dd, c = Node.file nm dd ∧ isZipName nm = false) →
      stageChildren cs = ([], []))
    ∧ (∀ (n : String) (cs : List Node), freshL cs = true → noZipL cs = true →
      ∃ f pu, runFrom f (Node.dir n cs) [[]] = ⟨Node.dir n cs, [], [], pu, false⟩) := by
  constructor
  · intro cs h
    induction cs with
    | nil => rfl
    | cons c cs ih =>
      obtain ⟨nm, dd, rfl, hz⟩ := h c (List.mem_cons_self _ _)
      rw [stageChildren, ih (fun c hc => h c (List.mem_cons_of_mem _ hc))]
      simp [hz]
  · intro n cs hf hz
    obtain ⟨f, ev, pu, h1, h2, _⟩ := unpack_master (1 + listW cs) n cs (le_refl _) hf
    have hev : ev = [] := by
      have he := eventsList_noZip (listW cs + 1) cs (by omega) hz
      exact (he ▸ h2).eq_nil
    have hcl : closeList cs = cs := closeList_noZip (listW cs + 1) cs (by omega) hz
    refine ⟨f, pu, ?_⟩
    rw [hcl, hev] at h1
    exact h1

/-- Witness for C2: a folder of two plain files stages nothing, and a
zip-free tree is untouched by the unpacker. -/
theorem c2_witness :
    stageChildren [Node.file "a.txt" "x", Node.file "b.doc" "y"] = ([], [])
    ∧ ∃ f pu, runFrom f (Node.dir "Extracted"
        [Node.file "a.txt" "x", Node.dir "d" [Node.file "b.doc" "y"]]) [[]] =
        ⟨Node.dir "Extracted" [Node.file "a.txt" "x", Node.dir "d" [Node.file "b.doc" "y"]],
         [], [], pu, false⟩ := by
  constructor
  · refine c2_staging_skips_and_unpack_noop.1 _ ?_
    intro c hc
    rcases List.mem_cons.mp hc with rfl | hc
    · exact ⟨"a.txt", "x", rfl, by decide⟩
    · rcases List.mem_cons.mp hc with rfl | hc
      · exact ⟨"b.doc", "y", rfl, by decide⟩
      · simp at hc
  · exact c2_staging_skips_and_unpack_noop.2 "Extracted" _ (by decide) (by decide)

/-! ## Claim C4 -/

/-- C4 is false as stated: on the tree left by a completed run of the
unpacker on a depth-1 archive, a second run performs one extraction, not
zero, because the archive file itself is still present and its existing
target directory does not stop `extractall`. -/
theorem c4_second_run_extracts_again :
    (runFrom 10 (Node.dir "" [nestZip 1]) [[]]).stack = []
      ∧ ((runFrom 10 (runFrom 10 (Node.dir "" [nestZip 1]) [[]]).fs [[]]).events.count
          (Event.extracted "a.zip")) = 1 := by decide

/-- C4 (amended): re-running the unpacker on the already-fully-unpacked
nested tree of any depth N drains again and leaves the tree unchanged (the
merge of identical contents into the existing target directory changes
nothing), but it is not extraction-free: for N ≥ 1 the remaining archive
file re-triggers extraction, so at least one extraction event is logged. -/
theorem c4_rerun_unchanged_but_extracts :
    ∀ (N : Nat) (n : String), ∃ f ev pu,
      runFrom f (Node.dir n (closeList [nestZip N])) [[]] =
        ⟨Node.dir n (closeList [nestZip N]), [], ev, pu, false⟩
      ∧ (1 ≤ N → Event.extracted "a.zip" ∈ ev) := by
  intro N
  induction N with
  | zero =>
    intro n
    refine ⟨1, [], [], ?_, fun hcon => absurd hcon (by omega)⟩
    have hscan : scanNames (closeList [nestZip 0]) ((closeList [nestZip 0]).map Node.name)
        = ⟨closeList [nestZip 0], [], []⟩ := by decide
    have hstep := stepPop_dir (getAt_nil (Node.dir n (closeList [nestZip 0])))
    rw [hscan] at hstep
    rw [runFrom_cons_some hstep 0 []]
    simp [runFrom_zero, modifyAt]
  | succ M ih =>
    intro n
    have hCS : closeList [nestZip (M + 1)]
        = [Node.zipFile "a.zip" [nestZip M], Node.dir "a" (closeList [nestZip M])] := by
      rw [closeList_nest, nestZip]
    rw [hCS]
    obtain ⟨f₁, ev₁, pu₁, hr₁, -⟩ := ih "a"
    have hzz : isZipName "a.zip" = true := by decide
    have hstem : stemOf "a.zip" = "a" := by decide
    have hb : ("a.zip" == "a") = false := by decide
    have hc1 : childNamed "a.zip"
        [Node.zipFile "a.zip" [nestZip M], Node.dir "a" (closeList [nestZip M])]
        = some (Node.zipFile "a.zip" [nestZip M]) := by
      simp [childNamed_cons, Node.name]
    have hc2 : childNamed "a"
        [Node.zipFile "a.zip" [nestZip M], Node.dir "a" (closeList [nestZip M])]
        = some (Node.dir "a" (closeList [nestZip M])) := by
      simp [childNamed_cons, Node.name, hb]
    have hmg : mergeDir [nestZip M] (Node.dir "a" (closeList [nestZip M]))
        = Node.dir "a" (closeList [nestZip M]) := by
      rw [mergeDir]
      rw [merge_nest M]
    have hproc1 : processName
        [Node.zipFile "a.zip" [nestZip M], Node.dir "a" (closeList [nestZip M])] "a.zip"
        = ⟨[Node.zipFile "a.zip" [nestZip M], Node.dir "a" (closeList [nestZip M])],
           ["a"], [Event.extracted "a.zip"]⟩ := by
      rw [processName]
      rw [hc1]
      simp only [hzz, if_true, hstem, hc2]
      rw [modifyChild_id_of hc2 hmg]
    have hproc2 : processName
        [Node.zipFile "a.zip" [nestZip M], Node.dir "a" (closeList [nestZip M])] "a"
        = ⟨[Node.zipFile "a.zip" [nestZip M], Node.dir "a" (closeList [nestZip M])],
           ["a"], []⟩ := by
      rw [processName, hc2]
    have hnames : ([Node.zipFile "a.zip" [nestZip M],
        Node.dir "a" (closeList [nestZip M])]).map Node.name = ["a.zip", "a"] := by
      simp [Node.name]
    have hscan : scanNames
        [Node.zipFile "a.zip" [nestZip M], Node.dir "a" (closeList [nestZip M])]
        (([Node.zipFile "a.zip" [nestZip M],
          Node.dir "a" (closeList [nestZip M])]).map Node.name)
        = ⟨[Node.zipFile "a.zip" [nestZip M], Node.dir "a" (closeList [nestZip M])],
           ["a", "a"], [Event.extracted "a.zip"]⟩ := by
      rw [hnames]
      rw [scanNames, hproc1]
      rw [scanNames, hproc2]
      rfl
    have hstep := stepPop_dir (getAt_nil (Node.dir n
      [Node.zipFile "a.zip" [nestZip M], Node.dir "a" (closeList [nestZip M])]))
    rw [hscan] at hstep
    simp only [modifyAt, List.map_cons, List.map_nil, List.nil_append] at hstep
    have hget : getAt (Node.dir n
        [Node.zipFile "a.zip" [nestZip M], Node.dir "a" (closeList [nestZip M])]) ["a"]
        = some (Node.dir "a" (closeList [nestZip M])) := by
      rw [getAt_cons, hc2]
      simp [getAt_nil]
    have hgraft := runFrom_graft f₁ ["a"] (Node.dir n
      [Node.zipFile "a.zip" [nestZip M], Node.dir "a" (closeList [nestZip M])]) [[]] hget
    rw [hr₁] at hgraft
    simp only [List.map_cons, List.map_nil, List.append_nil] at hgraft
    rw [setAt_getAt_self hget] at hgraft
    have hsplit := runFrom_split f₁ hgraft hgraft
    refine ⟨(f₁ + f₁) + 1, Event.extracted "a.zip" :: (ev₁ ++ ev₁),
      [["a"], ["a"]] ++ (pu₁.map (fun q => ["a"] ++ q) ++ pu₁.map (fun q => ["a"] ++ q)),
      ?_, fun _ => List.mem_cons_self _ _⟩
    rw [runFrom_cons_some hstep (f₁ + f₁) []]
    have hstack : (([["a"], ["a"]] : List Path).reverse ++ ([] : List Path))
        = [["a"]] ++ [["a"]] := rfl
    rw [hstack, hsplit]
    simp [modifyAt]

/-- Witness for C4 (amended) at depth 1: the second run leaves the tree
unchanged and logs an extraction. -/
theorem c4_witness :
    ∃ f ev pu,
      runFrom f (Node.dir "Extracted" (closeList [nestZip 1])) [[]] =
        ⟨Node.dir "Extracted" (closeList [nestZip 1]), [], ev, pu, false⟩
      ∧ Event.extracted "a.zip" ∈ ev := by
  obtain ⟨f, ev, pu, h1, h2⟩ := c4_rerun_unchanged_but_extracts 1 "Extracted"
  exact ⟨f, ev, pu, h1, h2 (by decide)⟩

/-! ## Claim C7 -/

/-- C7: the claimed containment fails.  On `srcC7` the empty archive
`D/a.zip` extracts successfully into the existing plain file path `D/a`,
which is then pushed onto the frontier; popping it calls `os.listdir` on a
non-directory outside every try block, so the run aborts: sorting never
happens (no csv is collected even though `c.zip` was extracted) and the
completion dialog is never shown. -/
theorem c7_uncaught_listdir_abort :
    (runPipeline 30 srcC7).crashed = true
      ∧ (runPipeline 30 srcC7).dialog = false
      ∧ (runPipeline 30 srcC7).csvs = []
      ∧ Event.extracted "c.zip" ∈ (runPipeline 30 srcC7).events
      ∧ Event.extracted "a.zip" ∈ (runPipeline 30 srcC7).events := by decide

/-! ## Claim C8 -/

/-- C8 is false as stated: on an empty source folder `Extracted/` is not
empty and log lines are produced, because the freshly created `Merged` and
`Extracted` directories are themselves listed and staged. -/
theorem c8_extracted_not_empty :
    (runPipeline 30 ([] : List Node)).extracted ≠ []
      ∧ (runPipeline 30 ([] : List Node)).events ≠ [] := by decide

/-- C8 (amended): on an empty source folder the two category folders stay
empty and the completion dialog is shown, but `Extracted/` receives a copy
of the just-created `Merged/` directory and a self-copy of `Extracted/`
(holding the `Merged` copy staged before it), and one copy log line is
emitted for each. -/
theorem c8_empty_source_amended :
    (runPipeline 30 ([] : List Node)).extracted
        = [Node.dir "Merged" [], Node.dir "Extracted" [Node.dir "Merged" []]]
      ∧ (runPipeline 30 ([] : List Node)).csvs = []
      ∧ (runPipeline 30 ([] : List Node)).pdfs = []
      ∧ (runPipeline 30 ([] : List Node)).events
        = [Event.copied "Merged", Event.copied "Extracted"]
      ∧ (runPipeline 30 ([] : List Node)).dialog = true := by decide

/-! ## Claim C9 -/

/-- C9 is false as stated: when the target directory of `a.zip` already
exists and holds a file `b.zip`, extraction overwrites that archive file in
place, so a path that was a `.zip` file before the run does not keep its
contents. -/
theorem c9_archive_overwritten :
    getAt fsC9 ["a", "b.zip"] = some (Node.file "b.zip" "old")
      ∧ (runFrom 10 fsC9 [[]]).stack = []
      ∧ getAt (runFrom 10 fsC9 [[]]).fs ["a", "b.zip"] = some (Node.file "b.zip" "new") := by decide

/-- C9 (amended): on a fresh working area (no extraction target already
present, distinct sibling names, recursively) the unpacker deletes and
modifies nothing: every pre-existing file — archives included — is still
found at its path with unchanged contents after the run, extraction having
only added new directories. -/
theorem c9_fresh_run_preserves_files (n : String) (cs : List Node) (h : freshL cs = true) :
    ∃ f ev pu, runFrom f (Node.dir n cs) [[]] =
        ⟨Node.dir n (closeList cs), [], ev, pu, false⟩
      ∧ (∀ (p : Path) (nm : String) (cts : List Node),
          getAt (Node.dir n cs) p = some (Node.zipFile nm cts) →
          getAt (Node.dir n (closeList cs)) p = some (Node.zipFile nm cts))
      ∧ (∀ (p : Path) (nm dd : String),
          getAt (Node.dir n cs) p = some (Node.file nm dd) →
          getAt (Node.dir n (closeList cs)) p = some (Node.file nm dd)) := by
  obtain ⟨f, ev, pu, h1, -, -⟩ := unpack_master (1 + listW cs) n cs (le_refl _) h
  refine ⟨f, ev, pu, h1, ?_, ?_⟩
  · intro p nm cts hp
    have := getAt_closeNode_preserve p (Node.dir n cs) _ hp (fun _ _ he => by cases he)
    rwa [closeNode_dir] at this
  · intro p nm dd hp
    have := getAt_closeNode_preserve p (Node.dir n cs) _ hp (fun _ _ he => by cases he)
    rwa [closeNode_dir] at this

/-- Witness for C9 on a working area holding a single archive that itself
contains an archive-named member. -/
theorem c9_witness :
    ∃ f ev pu, runFrom f (Node.dir "Extracted"
        [Node.zipFile "a.zip" [Node.file "b.zip" "B"]]) [[]] =
        ⟨Node.dir "Extracted" (closeList [Node.zipFile "a.zip" [Node.file "b.zip" "B"]]),
         [], ev, pu, false⟩
      ∧ (∀ (p : Path) (nm : String) (cts : List Node),
          getAt (Node.dir "Extracted" [Node.zipFile "a.zip" [Node.file "b.zip" "B"]]) p
            = some (Node.zipFile nm cts) →
          getAt (Node.dir "Extracted" (closeList [Node.zipFile "a.zip" [Node.file "b.zip" "B"]])) p
            = some (Node.zipFile nm cts))
      ∧ (∀ (p : Path) (nm dd : String),
          getAt (Node.dir "Extracted" [Node.zipFile "a.zip" [Node.file "b.zip" "B"]]) p
            = some (Node.file nm dd) →
          getAt (Node.dir "Extracted" (closeList [Node.zipFile "a.zip" [Node.file "b.zip" "B"]])) p
            = some (Node.file nm dd)) :=
  c9_fresh_run_preserves_files "Extracted" [Node.zipFile "a.zip" [Node.file "b.zip" "B"]]
    (by decide)

/-! ## Claim C10 -/

/-- C10: for a corrupt archive (a `.zip`-named plain file) whose extraction
target does not yet exist, the target directory is created before the
archive is opened, so the caught `BadZipFile` error leaves an empty
directory named after the archive minus its extension, and nothing is
pushed; shown in general for one listing step, and end to end on a folder
holding only `broken.zip`. -/
theorem c10_bad_zip_leaves_empty_dir :
    (∀ (cs : List Node) (item n d : String), childNamed item cs = some (Node.file n d) →
      isZipName n = true → childNamed (stemOf n) cs = none →
      processName cs item = ⟨cs ++ [Node.dir (stemOf n) []], [], [Event.badZip n]⟩)
      ∧ (runFrom 10 (Node.dir "" [Node.file "broken.zip" "garbage"]) [[]]).fs
          = Node.dir "" [Node.file "broken.zip" "garbage", Node.dir "broken" []]
      ∧ (runFrom 10 (Node.dir "" [Node.file "broken.zip" "garbage"]) [[]]).events
          = [Event.badZip "broken.zip"] := by
  refine ⟨fun cs item n d h1 h2 h3 => ?_, by decide, by decide⟩
  simp [processName, h1, h2, h3]

/-! ## Claim C3 -/

/-- C3: for every nesting depth N, the frontier-driven unpacking loop
started on a working area holding the depth-N nested archive drains its
stack completely within some finite fuel (it terminates), and the final
tree carries N levels of extraction directories: level k (1 ≤ k ≤ N) is
the directory `a` holding the unpacked remainder of depth N - k, and the
payload file sits below the innermost level. -/
theorem c3_nested_depth_unpacks :
    ∀ N : Nat, ∃ f ev pu,
      runFrom f (Node.dir "Extracted" [nestZip N]) [[]] =
        ⟨Node.dir "Extracted" (closeList [nestZip N]), [], ev, pu, false⟩
      ∧ (∀ k, 1 ≤ k → k ≤ N →
          getAt (Node.dir "Extracted" (closeList [nestZip N])) (List.replicate k "a")
            = some (Node.dir "a" (closeList [nestZip (N - k)])))
      ∧ getAt (Node.dir "Extracted" (closeList [nestZip N]))
          (List.replicate N "a" ++ ["f.csv"]) = some (Node.file "f.csv" "payload") := by
  intro N
  obtain ⟨f, ev, pu, hrun, -, -⟩ :=
    unpack_master (1 + listW [nestZip N]) "Extracted" [nestZip N] (le_refl _) (fresh_nest N)
  refine ⟨f, ev, pu, hrun, ?_, getAt_nest_payload N "Extracted"⟩
  intro k hk1 hkN
  obtain ⟨k', rfl⟩ : ∃ k', k = k' + 1 := ⟨k - 1, by omega⟩
  exact getAt_nest_chain k' N "Extracted" hkN

/-- Witness for C3 at depth 2: the run drains and both levels and the
payload are present. -/
theorem c3_witness :
    ∃ f ev pu,
      runFrom f (Node.dir "Extracted" [nestZip 2]) [[]] =
        ⟨Node.dir "Extracted" (closeList [nestZip 2]), [], ev, pu, false⟩
      ∧ getAt (Node.dir "Extracted" (closeList [nestZip 2])) (List.replicate 1 "a")
          = some (Node.dir "a" (closeList [nestZip 1]))
      ∧ getAt (Node.dir "Extracted" (closeList [nestZip 2])) (List.replicate 2 "a")
          = some (Node.dir "a" (closeList [nestZip 0]))
      ∧ getAt (Node.dir "Extracted" (closeList [nestZip 2]))
          (List.replicate 2 "a" ++ ["f.csv"]) = some (Node.file "f.csv" "payload") := by
  obtain ⟨f, ev, pu, hrun, hchain, hpay⟩ := c3_nested_depth_unpacks 2
  exact ⟨f, ev, pu, hrun, hchain 1 (by decide) (by decide),
    hchain 2 (by decide) (by decide), hpay⟩

/-! ## Claim C5 -/

/-- Counterexample to C5 as stated: when the extraction target directory of
an archive already exists as a sibling subdirectory, that one directory is
enqueued twice in a single parent scan - once as the archive output at line
74 and once as an ordinary subdirectory at line 78 - although it appears
once in the tree; the run still drains the frontier without crashing. -/
theorem c5_target_enqueued_twice :
    (runFrom 5 (Node.dir "E" csC5) [[]]).pushes.count ["a"] = 2
      ∧ (runFrom 5 (Node.dir "E" csC5) [[]]).stack = []
      ∧ (runFrom 5 (Node.dir "E" csC5) [[]]).crashed = false := by decide

/-- C5 (amended to fresh working areas: distinct sibling names, no
pre-existing extraction target, recursively): the loop drains and the
multiset of paths it ever pushes onto the frontier is exactly
`pushedList cs`: one entry per subdirectory scanned and one per
successfully extracted archive target, each exactly once (the list is
duplicate-free), and every pushed path is a directory of the final tree,
so archive files are never enqueued and nothing is re-enqueued after
extraction. -/
theorem c5_frontier_enqueued_once (n : String) (cs : List Node) (h : freshL cs = true) :
    ∃ f ev pu, runFrom f (Node.dir n cs) [[]] =
        ⟨Node.dir n (closeList cs), [], ev, pu, false⟩
      ∧ pu.Perm (pushedList cs)
      ∧ (pushedList cs).Nodup
      ∧ ∀ q ∈ pushedList cs, q ∈ dirPathsList (closeList cs) := by
  obtain ⟨f, ev, pu, h1, _, h3⟩ := unpack_master (1 + listW cs) n cs (le_refl _) h
  exact ⟨f, ev, pu, h1, h3, pushedList_nodup (listW cs + 1) cs (by omega) h,
    pushedList_sub_dirPaths (listW cs + 1) cs (by omega)⟩

/-- Witness for C5 on a small fresh tree with one archive and one
subdirectory. -/
theorem c5_witness :
    ∃ f ev pu, runFrom f (Node.dir "Extracted"
        [Node.zipFile "a.zip" [Node.file "x.csv" "X"], Node.dir "d" [Node.file "y.txt" "Y"]]) [[]] =
        ⟨Node.dir "Extracted" (closeList
          [Node.zipFile "a.zip" [Node.file "x.csv" "X"], Node.dir "d" [Node.file "y.txt" "Y"]]),
         [], ev, pu, false⟩
      ∧ pu.Perm (pushedList
          [Node.zipFile "a.zip" [Node.file "x.csv" "X"], Node.dir "d" [Node.file "y.txt" "Y"]])
      ∧ (pushedList
          [Node.zipFile "a.zip" [Node.file "x.csv" "X"], Node.dir "d" [Node.file "y.txt" "Y"]]).Nodup
      ∧ ∀ q ∈ pushedList
          [Node.zipFile "a.zip" [Node.file "x.csv" "X"], Node.dir "d" [Node.file "y.txt" "Y"]],
          q ∈ dirPathsList (closeList
            [Node.zipFile "a.zip" [Node.file "x.csv" "X"], Node.dir "d" [Node.file "y.txt" "Y"]]) :=
  c5_frontier_enqueued_once "Extracted"
    [Node.zipFile "a.zip" [Node.file "x.csv" "X"], Node.dir "d" [Node.file "y.txt" "Y"]]
    (by decide)

/-- Witness for C10: the general step fact applied to the concrete corrupt
archive `broken.zip` in a folder where its target `broken` is absent. -/
theorem c10_witness :
    processName [Node.file "broken.zip" "garbage"] "broken.zip"
      = ⟨[Node.file "broken.zip" "garbage", Node.dir "broken" []], [], [Event.badZip "broken.zip"]⟩ :=
  c10_bad_zip_leaves_empty_dir.1 [Node.file "broken.zip" "garbage"] "broken.zip" "broken.zip"
    "garbage" (by decide) (by decide) (by decide)

/-! ## C6: the sorter as a classification -/

/-- A file name cannot end in both recognized suffixes at once. -/
theorem not_csv_and_pdf (n : String) : ¬(isCsvName n = true ∧ isPdfName n = true) := by
  rintro ⟨h, hp⟩
  simp only [isCsvName, isPdfName, strEndsWith, decide_eq_true_eq] at h hp
  have e1 : ".csv".toList.length = 4 := rfl
  have e2 : ".pdf".toList.length = 4 := rfl
  rw [e1] at h
  rw [e2] at hp
  rw [h] at hp
  exact absurd hp (by decide)

/-- When every remaining file name is absent from the accumulator folders and
the remaining names are pairwise distinct, every `shutil.copy` appends (no
overwrite), so the sorter is a pair of filters over the walk order. -/
theorem sortWalk_fresh (fs : List Node) : ∀ (C P : List Node) (E : List Event),
    (fs.map Node.name).Nodup →
    (∀ f ∈ fs, f.name ∉ C.map Node.name) →
    (∀ f ∈ fs, f.name ∉ P.map Node.name) →
    (sortWalk ⟨C, P, E⟩ fs).csvs = C ++ fs.filter (fun f => isCsvName f.name) ∧
    (sortWalk ⟨C, P, E⟩ fs).pdfs
      = P ++ fs.filter (fun f => !isCsvName f.name && isPdfName f.name) := by
  induction fs with
  | nil => intro C P E _ _ _; simp [sortWalk]
  | cons f rest ih =>
    intro C P E hnd hC hP
    rw [List.map_cons] at hnd
    obtain ⟨hfr, hndr⟩ := List.nodup_cons.mp hnd
    have hrC : ∀ g ∈ rest, g.name ∉ C.map Node.name :=
      fun g hg => hC g (List.mem_cons_of_mem _ hg)
    have hrP : ∀ g ∈ rest, g.name ∉ P.map Node.name :=
      fun g hg => hP g (List.mem_cons_of_mem _ hg)
    cases hcsv : isCsvName f.name with
    | true =>
      have hnone : childNamed f.name C = none :=
        childNamed_none_iff.mpr fun c hc he =>
          hC f (List.mem_cons_self f rest) (he ▸ List.mem_map_of_mem Node.name hc)
      have hput : putFlat C f = C ++ [f] := by simp [putFlat, hnone]
      have hrC2 : ∀ g ∈ rest, g.name ∉ (C ++ [f]).map Node.name := by
        intro g hg hmem
        rw [List.map_append] at hmem
        rcases List.mem_append.mp hmem with h | h
        · exact hrC g hg h
        · have hgf : g.name = f.name := by simpa using h
          exact hfr (hgf ▸ List.mem_map_of_mem Node.name hg)
      obtain ⟨ih1, ih2⟩ := ih (C ++ [f]) P (E ++ [Event.sortedCsv f.name]) hndr hrC2 hrP
      have hstep : sortWalk ⟨C, P, E⟩ (f :: rest)
          = sortWalk ⟨C ++ [f], P, E ++ [Event.sortedCsv f.name]⟩ rest := by
        simp [sortWalk, hcsv, hput]
      rw [hstep]
      constructor
      · rw [ih1]; simp [List.filter_cons, hcsv, List.append_assoc]
      · rw [ih2]; simp [List.filter_cons, hcsv]
    | false =>
      cases hpdf : isPdfName f.name with
      | true =>
        have hnone : childNamed f.name P = none :=
          childNamed_none_iff.mpr fun c hc he =>
            hP f (List.mem_cons_self f rest) (he ▸ List.mem_map_of_mem Node.name hc)
        have hput : putFlat P f = P ++ [f] := by simp [putFlat, hnone]
        have hrP2 : ∀ g ∈ rest, g.name ∉ (P ++ [f]).map Node.name := by
          intro g hg hmem
          rw [List.map_append] at hmem
          rcases List.mem_append.mp hmem with h | h
          · exact hrP g hg h
          · have hgf : g.name = f.name := by simpa using h
            exact hfr (hgf ▸ List.mem_map_of_mem Node.name hg)
        obtain ⟨ih1, ih2⟩ := ih C (P ++ [f]) (E ++ [Event.sortedPdf f.name]) hndr hrC hrP2
        have hstep : sortWalk ⟨C, P, E⟩ (f :: rest)
            = sortWalk ⟨C, P ++ [f], E ++ [Event.sortedPdf f.name]⟩ rest := by
          simp [sortWalk, hcsv, hpdf, hput]
        rw [hstep]
        constructor
        · rw [ih1]; simp [List.filter_cons, hcsv]
        · rw [ih2]; simp [List.filter_cons, hcsv, hpdf, List.append_assoc]
      | false =>
        obtain ⟨ih1, ih2⟩ := ih C P E hndr hrC hrP
        have hstep : sortWalk ⟨C, P, E⟩ (f :: rest) = sortWalk ⟨C, P, E⟩ rest := by
          simp [sortWalk, hcsv, hpdf]
        rw [hstep]
        constructor
        · rw [ih1]; simp [List.filter_cons, hcsv]
        · rw [ih2]; simp [List.filter_cons, hcsv, hpdf]

/-- Counterexample to C6 as stated: the sorter copies into a single flat
folder keyed by bare file name, so of two same-named recognized files in
different directories only the last-walked copy survives; the first file is
recognized and under the root yet zero copies of it are in `All_CSVs`. -/
theorem c6_duplicate_name_lost :
    Node.file "data.csv" "one" ∈ walkAll srcC6 ∧
    isCsvName "data.csv" = true ∧
    ((organize srcC6).csvs).count (Node.file "data.csv" "one") = 0 := by decide

/-- C6 (amended with a freshness hypothesis): when all file names under the
root are pairwise distinct, every `.csv` file appears exactly once in
`All_CSVs` and every `.pdf` file exactly once in `All_PDFs`; and
unconditionally in that setting, everything in `All_CSVs` is a `.csv` file
from under the root and everything in `All_PDFs` is a `.pdf` file from under
the root, so no unrecognized file is ever copied. -/
theorem c6_recognized_sorted_once (cs : List Node)
    (hnd : ((walkAll cs).map Node.name).Nodup) :
    (∀ f ∈ walkAll cs, isCsvName f.name = true → ((organize cs).csvs).count f = 1) ∧
    (∀ f ∈ walkAll cs, isPdfName f.name = true → ((organize cs).pdfs).count f = 1) ∧
    (∀ g ∈ (organize cs).csvs, isCsvName g.name = true ∧ g ∈ walkAll cs) ∧
    (∀ g ∈ (organize cs).pdfs, isPdfName g.name = true ∧ g ∈ walkAll cs) := by
  obtain ⟨h1, h2⟩ := sortWalk_fresh (walkAll cs) [] [] [] hnd (by simp) (by simp)
  have hc : (organize cs).csvs = (walkAll cs).filter (fun f => isCsvName f.name) := by
    rw [organize]; simpa using h1
  have hp : (organize cs).pdfs
      = (walkAll cs).filter (fun f => !isCsvName f.name && isPdfName f.name) := by
    rw [organize]; simpa using h2
  have hndw : (walkAll cs).Nodup := List.Nodup.of_map Node.name hnd
  refine ⟨?_, ?_, ?_, ?_⟩
  · intro f hf hcsv
    rw [hc]
    exact List.count_eq_one_of_mem (hndw.filter _) (List.mem_filter.mpr ⟨hf, hcsv⟩)
  · intro f hf hpdf
    have hnc : isCsvName f.name = false := by
      cases hx : isCsvName f.name with
      | false => rfl
      | true => exact absurd ⟨hx, hpdf⟩ (not_csv_and_pdf f.name)
    rw [hp]
    refine List.count_eq_one_of_mem (hndw.filter _) (List.mem_filter.mpr ⟨hf, ?_⟩)
    simp [hnc, hpdf]
  · intro g hg
    rw [hc] at hg
    exact ⟨(List.mem_filter.mp hg).2, (List.mem_filter.mp hg).1⟩
  · intro g hg
    rw [hp] at hg
    have hb := (List.mem_filter.mp hg).2
    rw [Bool.and_eq_true] at hb
    exact ⟨hb.2, (List.mem_filter.mp hg).1⟩

/-- Witness for C6 on a tree with pairwise-distinct file names. -/
theorem c6_witness :
    ((walkAll wsC6).map Node.name).Nodup ∧
    ((organize wsC6).csvs).count (Node.file "a.csv" "x") = 1 ∧
    ((organize wsC6).pdfs).count (Node.file "b.pdf" "y") = 1 :=
  ⟨by decide,
   (c6_recognized_sorted_once wsC6 (by decide)).1 (Node.file "a.csv" "x") (by decide) (by decide),
   (c6_recognized_sorted_once wsC6 (by decide)).2.1 (Node.file "b.pdf" "y") (by decide) (by decide)⟩

end ZipCollector
